import Mathlib

set_option maxHeartbeats 1000000

/-!
Verification development for the `armory` workspace-release tool
(`armory_lib/src/lib.rs` and `armory_cli/src/main.rs`).

The Rust sources are shallowly embedded below:

* semantic versions become a triple of naturals; the three release-type
  transforms mirror the field mutations in `armory_cli/src/main.rs`;
* TOML documents (as manipulated through `toml_edit`) become association
  lists of key/value pairs, where a value is a string, a (table-like)
  table, or an opaque non-string scalar; `update_member_deps` becomes a
  pure function from the member manifests to the rewritten manifests plus
  the local-dependency graph;
* the publish walk (`publish_workspace` / `publish_crate`) becomes a
  fuel-indexed interpreter over an explicit `WalkState` holding the
  `already_published` set and a trace of registry calls and publish marks.
  `none` means the fuel ran out (the embedding device for the unbounded
  recursion of the source); `Except.error` models a fatal panic, carrying
  the state at the moment the process dies;
* the `retry_with_index` wrapper with the `current_try > 5` cutoff becomes
  `retry_publish`, which records one trace event per registry attempt.
-/

namespace Armory

/-- Semantic version triple, as the `major`/`minor`/`patch` fields of
`semver::Version` used by the tool (pre-release/build metadata are never
produced by it). -/
structure Version where
  major : Nat
  minor : Nat
  patch : Nat
deriving DecidableEq, Repr

/-- The `Patch` transform of `armory_cli::main`: `version.patch += 1`. -/
def bump_patch (v : Version) : Version := { v with patch := v.patch + 1 }

/-- The `Minor` transform of `armory_cli::main`: `version.minor += 1; version.patch = 0`. -/
def bump_minor (v : Version) : Version := { v with minor := v.minor + 1, patch := 0 }

/-- The `Major` transform of `armory_cli::main`:
`version.major += 1; version.minor = 0; version.patch = 0`. -/
def bump_major (v : Version) : Version :=
  { v with major := v.major + 1, minor := 0, patch := 0 }

/-- The three release types offered by the interactive prompt. -/
inductive ReleaseType where
  | patch
  | minor
  | major
deriving DecidableEq, Repr

/-- Release-type dispatch over the three transforms of `armory_cli::main`. -/
def bump : ReleaseType → Version → Version
  | ReleaseType.patch, v => bump_patch v
  | ReleaseType.minor, v => bump_minor v
  | ReleaseType.major, v => bump_major v

/-- The record held in `armory.toml`: a single `version` field. -/
structure ArmoryTOML where
  version : Version
deriving DecidableEq, Repr

/-! ### TOML documents, as edited through `toml_edit` -/

/-- A TOML item: a string value, a standard table (what `as_table_mut`
accepts), an inline table (table-like — `as_table_like_mut` accepts it —
but rejected by `as_table_mut`), or an opaque non-string scalar
(integers, arrays, ...) that the tool never inspects beyond noting that
`as_str` and the table accessors fail on it. -/
inductive Toml where
  | str : String → Toml
  | table : List (String × Toml) → Toml
  | inlineTable : List (String × Toml) → Toml
  | other : String → Toml

/-- A TOML document or table body: an ordered association list of keys to
items (real TOML tables have unique keys). -/
abbrev Doc := List (String × Toml)

/-- Key lookup in a table, as `toml_edit`'s `get`. -/
def getVal : Doc → String → Option Toml
  | [], _ => none
  | (n, x) :: rest, k => if n = k then some x else getVal rest k

/-- Key update in a table, as `toml_edit`'s `insert`: replaces the value
of an existing key in place, otherwise appends the new pair. -/
def setKey : Doc → String → Toml → Doc
  | [], k, v => [(k, v)]
  | (n, x) :: rest, k, v =>
    if n = k then (n, v) :: rest else (n, x) :: setKey rest k v

/-- Whitespace-trimming of both ends of a name, as `str::trim` applied by
`update_member_deps` to dependency and member names (re-implemented
structurally; the tool's names never carry the exotic Unicode whitespace
on which this differs from Rust). -/
def trimName (s : String) : String :=
  String.mk (((s.data.dropWhile Char.isWhitespace).reverse.dropWhile Char.isWhitespace).reverse)

/-- Whether a dependency entry is table-like (`as_table_like_mut`
accepts both standard and inline tables) and carries a string-valued
`path` key, i.e. the `if let Some(Some(_)) = dep.get("path").map(|dep| dep.as_str())`
test of `update_member_deps`. -/
def hasLocalPath : Toml → Bool
  | Toml.table kvs =>
    match getVal kvs "path" with
    | some (Toml.str _) => true
    | _ => false
  | Toml.inlineTable kvs =>
    match getVal kvs "path" with
    | some (Toml.str _) => true
    | _ => false
  | _ => false

/-- The per-entry loop of `update_member_deps` over the `[dependencies]`
table: every table-like entry with a string `path` key gets
`version = <target>` inserted and its (trimmed) name collected as a local
edge; every other entry is left as it is.  Returns the rewritten table
and the collected local-dependency names (the `HashSet` of the source,
modelled as a list whose membership is what matters). -/
def updateDeps (v : String) : Doc → Doc × List String
  | [] => ([], [])
  | (n, dep) :: rest =>
    let r := updateDeps v rest
    match dep with
    | Toml.table kvs =>
      match getVal kvs "path" with
      | some (Toml.str _) =>
        ((n, Toml.table (setKey kvs "version" (Toml.str v))) :: r.1, trimName n :: r.2)
      | _ => ((n, dep) :: r.1, r.2)
    | Toml.inlineTable kvs =>
      match getVal kvs "path" with
      | some (Toml.str _) =>
        ((n, Toml.inlineTable (setKey kvs "version" (Toml.str v))) :: r.1, trimName n :: r.2)
      | _ => ((n, dep) :: r.1, r.2)
    | _ => ((n, dep) :: r.1, r.2)

/-- The `member_toml["package"]["version"] = value(version.to_string())`
assignment.  `toml_edit`'s `IndexMut` creates the `package` table
implicitly when the key is missing, updates any table-like `package`
item in place (keeping its standard or inline kind), and panics — `none`
here, killing the release — when `package` holds a non-table-like
value. -/
def set_package_version (v : String) (doc : Doc) : Option Doc :=
  match getVal doc "package" with
  | some (Toml.table kvs) =>
    some (setKey doc "package" (Toml.table (setKey kvs "version" (Toml.str v))))
  | some (Toml.inlineTable kvs) =>
    some (setKey doc "package" (Toml.inlineTable (setKey kvs "version" (Toml.str v))))
  | none => some (setKey doc "package" (Toml.table [("version", Toml.str v)]))
  | some (Toml.str _) => none
  | some (Toml.other _) => none

/-- The per-member body of `update_member_deps`: set the member's own
version (which can die inside `toml_edit`, hence the `Option`), then
rewrite its `[dependencies]` table when `as_table_mut` accepts it — only
a standard table (the `Some(Some(table))` arm): an inline `dependencies`
table, like any other shape of the key, falls into the `_ => {}` arm and
is left untouched with no edges recorded.  Returns the manifest written
back to disk and the member's local edges. -/
def update_member_manifest (v : String) (doc : Doc) : Option (Doc × List String) :=
  match set_package_version v doc with
  | none => none
  | some doc1 =>
    match getVal doc1 "dependencies" with
    | some (Toml.table deps) =>
      let r := updateDeps v deps
      some (setKey doc1 "dependencies" (Toml.table r.1), r.2)
    | _ => some (doc1, [])

/-- The dependency graph of `update_member_deps`: member name (trimmed)
to local-dependency names. The list order stands for the arbitrary
iteration order of the source's `HashMap`. -/
abbrev Graph := List (String × List String)

/-- `HashMap::get` on the graph. -/
def getDeps : Graph → String → Option (List String)
  | [], _ => none
  | (n, ds) :: rest, k => if n = k then some ds else getDeps rest k

/-- The key set of the graph, in iteration order. -/
def keys (g : Graph) : List String := g.map Prod.fst

/-- `update_member_deps` over the whole workspace: rewrite every member
manifest in member order and build the graph.  Takes the members as
(name, manifest) pairs read from the workspace `Cargo.toml`; returns the
rewritten manifests (in order) and the graph, or `none` when a
`toml_edit` panic while rewriting some member kills the whole release
(members before it are already written at that point — see
`rewrittenMembers`). -/
def update_member_deps (v : String) : List (String × Doc) → Option (List (String × Doc) × Graph)
  | [] => some ([], [])
  | (name, doc) :: rest =>
    match update_member_manifest v doc with
    | none => none
    | some u =>
      match update_member_deps v rest with
      | none => none
      | some r => some ((name, u.1) :: r.1, (trimName name, u.2) :: r.2)

/-- The version item recorded in the table-like `package` item of a
manifest. -/
def readPackageVersion (doc : Doc) : Option Toml :=
  match getVal doc "package" with
  | some (Toml.table kvs) => getVal kvs "version"
  | some (Toml.inlineTable kvs) => getVal kvs "version"
  | _ => none

/-- The entries of the standard `[dependencies]` table of a manifest —
exactly what the program's `as_table_mut` gate rewrites (empty when the
key is absent, an inline table, or any other non-table shape). -/
def depsTable (doc : Doc) : Doc :=
  match getVal doc "dependencies" with
  | some (Toml.table kvs) => kvs
  | _ => []

/-- The required version recorded in a table-like dependency entry. -/
def depVersion (dep : Toml) : Option Toml :=
  match dep with
  | Toml.table kvs => getVal kvs "version"
  | Toml.inlineTable kvs => getVal kvs "version"
  | _ => none

/-- Relation between an original dependency entry and its rewritten form:
a local-path entry keeps its name, gets the target version pinned and its
trimmed name recorded among the member's edges; any other entry is
returned unchanged. -/
def DepRewritten (v : String) (locals : List String) (old new : String × Toml) : Prop :=
  new.1 = old.1 ∧
    ((hasLocalPath old.2 = true ∧ depVersion new.2 = some (Toml.str v) ∧
        trimName old.1 ∈ locals) ∨
      (hasLocalPath old.2 = false ∧ new.2 = old.2))

/-- Relation between a member and its rewritten form under a graph: same
name, self version pinned to the target, the standard `[dependencies]`
table related entrywise to the original through the member's recorded
edges — and when the `dependencies` key holds anything but a standard
table (for instance an inline table), it is written back unchanged and
the member gets no edges. -/
def MemberRewritten (v : String) (g : Graph) (old new : String × Doc) : Prop :=
  new.1 = old.1 ∧ readPackageVersion new.2 = some (Toml.str v) ∧
    ∃ locals, getDeps g (trimName old.1) = some locals ∧
      List.Forall₂ (DepRewritten v locals) (depsTable old.2) (depsTable new.2) ∧
      ((∀ kvs, getVal old.2 "dependencies" ≠ some (Toml.table kvs)) →
        getVal new.2 "dependencies" = getVal old.2 "dependencies" ∧ locals = [])

/-! ### The publish walk -/


/-- Observable events of the walk: `call m t` is one registry publish
invocation for member `m` (the `t`-th try inside the retry wrapper);
`pub m` is the insertion of `m` into `already_published`. -/
inductive Ev where
  | call : String → Nat → Ev
  | pub : String → Ev
deriving DecidableEq, Repr

/-- The shared state threaded through `publish_crate`: the
`already_published` set (as its insertion-ordered list) and the event
trace. -/
structure WalkState where
  published : List String
  trace : List Ev
deriving DecidableEq, Repr

/-- The fatal panics of a release: `missingKey` is
`all_packages.get(...).unwrap()` in `publish_crate` on a name that is not
a key of the graph; `publishFailed` is the `current_try > 5` abort of the
retry closure; `manifestIndex` is the `toml_edit` indexing panic during
manifest rewriting (a non-table-like `package` item), which kills the
release before the walk starts — the walk itself never produces it
(`publish_crates_no_manifestIndex`). -/
inductive Panic where
  | missingKey : String → Panic
  | publishFailed : String → Panic
  | manifestIndex : Panic
deriving DecidableEq, Repr

/-- The retry loop of `retry_with_index`: the closure is invoked with
`current_try` = `t` (1-based); a successful publish ends the loop, a
failed one panics when `current_try > 5` and is retried otherwise (the
Fibonacci delay iterator never ends, so only the panic stops it).  The
countdown argument is forced by structural recursion and never runs out
when started from `retry_publish`.  `f m t` is the outcome of the `t`-th
registry publish call for member `m` (the opaque registry client).
Returns the registry-call events in order and whether the loop ended in
success. -/
def retry_go (f : String → Nat → Bool) (name : String) : Nat → Nat → List Ev × Bool
  | _, 0 => ([], false)
  | t, k + 1 =>
    if f name t then ([Ev.call name t], true)
    else if 5 < t then ([Ev.call name t], false)
    else
      let r := retry_go f name (t + 1) k
      (Ev.call name t :: r.1, r.2)

/-- One retry-wrapped publish of a member: tries start at 1 and the panic
fires on the failure of try 6, so at most 6 registry calls happen. -/
def retry_publish (f : String → Nat → Bool) (name : String) : List Ev × Bool :=
  retry_go f name 1 6

/-- The publish walk over a worklist of member names.  Processing a name
is `publish_crate`: return at once when it is already published; panic
(`missingKey`) when it is not a key of the graph; otherwise walk its
local dependencies first, then run the retry-wrapped publish, and on
success mark it published and continue.  Processing the whole list with a
shared state is both the dependency loop of `publish_crate` and the
member loop of `publish_workspace` (the source's pre-recursion
`!already_published.contains` test is the same entry test).  The fuel
only bounds the recursion depth of the embedding: `none` means it ran
out, which the termination theorems rule out for acyclic graphs. -/
def publish_crates (f : String → Nat → Bool) (g : Graph) :
    Nat → List String → WalkState → Option (Except (Panic × WalkState) WalkState)
  | 0, _, _ => none
  | _ + 1, [], st => some (Except.ok st)
  | fuel + 1, c :: cs, st =>
    if c ∈ st.published then publish_crates f g fuel cs st
    else
      match getDeps g c with
      | none => some (Except.error (Panic.missingKey c, st))
      | some deps =>
        match publish_crates f g fuel deps st with
        | none => none
        | some (Except.error e) => some (Except.error e)
        | some (Except.ok st1) =>
          if (retry_publish f c).2 then
            publish_crates f g fuel cs
              ⟨st1.published ++ [c], (st1.trace ++ (retry_publish f c).1) ++ [Ev.pub c]⟩
          else
            some (Except.error (Panic.publishFailed c, ⟨st1.published, st1.trace ++ (retry_publish f c).1⟩))

/-- `publish_crate` on a single member, as called recursively by the source. -/
def publish_crate (f : String → Nat → Bool) (g : Graph) (fuel : Nat) (c : String)
    (st : WalkState) : Option (Except (Panic × WalkState) WalkState) :=
  publish_crates f g fuel [c] st

/-- The member loop of `publish_workspace`: iterate `publish_crate` over
every key of the graph with a shared, initially empty `PublishState`. -/
def publish_walk (f : String → Nat → Bool) (g : Graph) (fuel : Nat) :
    Option (Except (Panic × WalkState) WalkState) :=
  publish_crates f g fuel (keys g) ⟨[], []⟩

/-- The state carried by a walk result (final state on success, the state
at the moment of death on a panic). -/
def resultState : Except (Panic × WalkState) WalkState → WalkState
  | Except.ok st => st
  | Except.error (_, st) => st

/-! ### Serialization of the version record (`armory.toml`) -/

/-- Digit character of a decimal digit. -/
def digitChar (d : Nat) : Char :=
  if d = 0 then '0' else if d = 1 then '1' else if d = 2 then '2'
  else if d = 3 then '3' else if d = 4 then '4' else if d = 5 then '5'
  else if d = 6 then '6' else if d = 7 then '7' else if d = 8 then '8' else '9'

/-- Decimal digit of a digit character. -/
def charToDigit (c : Char) : Nat := c.toNat - 48

/-- Decimal rendering of a natural, most significant digit first. -/
def printNat (n : Nat) : List Char :=
  if n = 0 then ['0'] else ((Nat.digits 10 n).reverse).map digitChar

/-- Parse a non-empty all-digit character run as a natural. -/
def parseNatChars (cs : List Char) : Option Nat :=
  if cs = [] then none
  else if cs.all Char.isDigit then
    some (cs.foldl (fun a c => a * 10 + charToDigit c) 0)
  else none

/-- Split a character list on `.` separators. -/
def splitDot : List Char → List (List Char)
  | [] => [[]]
  | c :: rest =>
    if c = '.' then [] :: splitDot rest
    else
      match splitDot rest with
      | [] => [[c]]
      | grp :: gs => (c :: grp) :: gs

/-- The `Display` rendering of a `semver::Version` produced by the tool:
`major.minor.patch`. -/
def versionChars (v : Version) : List Char :=
  printNat v.major ++ '.' :: (printNat v.minor ++ '.' :: printNat v.patch)

/-- `Version::to_string()`. -/
def versionToString (v : Version) : String := String.mk (versionChars v)

/-- Parse of a `major.minor.patch` rendering. -/
def parseVersionChars (cs : List Char) : Option Version :=
  match splitDot cs with
  | [a, b, c] =>
    match parseNatChars a, parseNatChars b, parseNatChars c with
    | some x, some y, some z => some ⟨x, y, z⟩
    | _, _, _ => none
  | _ => none

/-- Modelled from the spec: the Version Store file format.  The actual
serialization (`toml::to_string` over the one-field `ArmoryTOML` record,
with `semver::Version` rendered through `Display`) lives in external
crates, so `save_armory_toml` is modelled at the interface boundary of
section 6 of the spec: the bytes written to `armory.toml` are the single
line `version = "major.minor.patch"`. -/
def save_armory_toml (a : ArmoryTOML) : List Char :=
  "version = \"".data ++ versionChars a.version ++ "\"\n".data

/-- Drop an expected literal prefix. -/
def stripPrefixChars : List Char → List Char → Option (List Char)
  | [], cs => some cs
  | _ :: _, [] => none
  | p :: ps, c :: cs => if c = p then stripPrefixChars ps cs else none

/-- Read a quoted string body up to the closing quote. -/
def takeQuoted : List Char → Option (List Char × List Char)
  | [] => none
  | c :: cs =>
    if c = '"' then some ([], cs)
    else
      match takeQuoted cs with
      | none => none
      | some (s, rest) => some (c :: s, rest)

/-- Modelled from the spec: the Version Store reader.  The actual code
(`toml::from_str` into `ArmoryTOML`, with `semver`'s `FromStr` for the
`version` field) lives in external crates; it is modelled here on the
file shape `save_armory_toml` produces: the `version` key's quoted value
is parsed as a `major.minor.patch` version. -/
def load_armory_toml (cs : List Char) : Option ArmoryTOML :=
  match stripPrefixChars ("version = \"".data) cs with
  | none => none
  | some rest =>
    match takeQuoted rest with
    | none => none
    | some (s, rest2) =>
      if rest2 = ['\n'] then
        match parseVersionChars s with
        | some ver => some ⟨ver⟩
        | none => none
      else none

/-! ### The whole release run -/

/-- `publish_workspace(dir, version)` of the source: rewrite every member
manifest via `update_member_deps`, then run the publish walk over the
resulting graph from an empty `PublishState`.  A `toml_edit` panic during
rewriting kills the process with nothing published and no registry call
made (`manifestIndex` with the empty state). -/
def publish_workspace (f : String → Nat → Bool) (v : Version)
    (members : List (String × Doc)) (fuel : Nat) :
    Option (Except (Panic × WalkState) WalkState) :=
  match update_member_deps (versionToString v) members with
  | none => some (Except.error (Panic.manifestIndex, ⟨[], []⟩))
  | some r => publish_crates f r.2 fuel (keys r.2) ⟨[], []⟩

/-- Observable actions of one release run, in order: the overwrite of the
version record (`save_armory_toml` in `main`), the write-back of one
member manifest (inside `update_member_deps`), one registry publish call,
one `PublishState` insertion. -/
inductive Action where
  | saveRecord : Version → Action
  | rewriteManifest : String → Action
  | registryCall : String → Nat → Action
  | publishMark : String → Action
deriving DecidableEq, Repr

/-- Walk events seen as release-run actions. -/
def walkActions : List Ev → List Action :=
  List.map (fun e =>
    match e with
    | Ev.call n t => Action.registryCall n t
    | Ev.pub n => Action.publishMark n)

/-- Trace of a walk result (`none`, out of fuel, contributes nothing). -/
def runTrace (res : Option (Except (Panic × WalkState) WalkState)) : List Ev :=
  match res with
  | none => []
  | some r => (resultState r).trace

/-- Names of the members whose manifests are actually written back by
`update_member_deps`, in loop order: a member's file is written after its
in-memory rewrite succeeded, and the `toml_edit` panic aborts the loop
before writing the offending member (the earlier ones stay written). -/
def rewrittenMembers (v : String) : List (String × Doc) → List String
  | [] => []
  | (name, doc) :: rest =>
    match update_member_manifest v doc with
    | none => []
    | some _ => name :: rewrittenMembers v rest

/-- One release run of `armory_cli::main` after the operator picked
`rt`: the new version is chosen by the release-type transform, the
version record is overwritten (`save_armory_toml`), then
`publish_workspace` rewrites the member manifests in member order (up to
a `toml_edit` panic, if any) and performs the publish walk. -/
def release_run (f : String → Nat → Bool) (rt : ReleaseType) (cur : Version)
    (members : List (String × Doc)) (fuel : Nat) : List Action :=
  Action.saveRecord (bump rt cur) ::
    ((rewrittenMembers (versionToString (bump rt cur)) members).map Action.rewriteManifest ++
      walkActions (runTrace (publish_workspace f (bump rt cur) members fuel)))

/-! ### Specification predicates -/

/-- A rank function witnessing acyclicity: along every edge of the graph
the rank strictly drops.  A finite graph admits such a function exactly
when it is acyclic. -/
def IsRank (g : Graph) (rk : String → Nat) : Prop :=
  ∀ p ∈ g, ∀ d ∈ p.2, rk d < rk p.1

/-- Closure over workspace membership: every edge target is itself a key
of the graph. -/
def Closed (g : Graph) : Prop :=
  ∀ p ∈ g, ∀ d ∈ p.2, d ∈ keys g

/-- Every member is marked published at most once in the trace. -/
def AtMostOncePub (tr : List Ev) : Prop :=
  ∀ m, tr.count (Ev.pub m) ≤ 1

/-- Every registry call for a member happens strictly after the publish
mark of each of its local dependencies: whenever the trace splits around
a call of `m`, all of `m`'s dependencies are already marked published in
the earlier part. -/
def CallsAfterDeps (g : Graph) (tr : List Ev) : Prop :=
  ∀ l1 m t l2, tr = l1 ++ Ev.call m t :: l2 →
    ∀ ds, getDeps g m = some ds → ∀ d ∈ ds, Ev.pub d ∈ l1

/-- Whether an event is a registry call for member `m`. -/
def isCallTo (m : String) : Ev → Bool
  | Ev.call n _ => n == m
  | _ => false

/-- Number of registry publish calls for member `m` in a trace. -/
def attemptCount (m : String) (tr : List Ev) : Nat := tr.countP (isCallTo m)

/-- Invariant of the walk state along the execution: publish marks agree
with the `already_published` set (each member at most once), every call
follows its dependencies' marks, calls only belong to members whose
retry-wrapped publish succeeded (a failed one kills the process at once),
and every published member had a succeeding retry. -/
structure Inv (f : String → Nat → Bool) (g : Graph) (st : WalkState) : Prop where
  pubCount : ∀ m, st.trace.count (Ev.pub m) = if m ∈ st.published then 1 else 0
  depsBefore : CallsAfterDeps g st.trace
  callsPub : ∀ m t, Ev.call m t ∈ st.trace → m ∈ st.published
  pubOk : ∀ m ∈ st.published, (retry_publish f m).2 = true

/-- State extension: the published list and the trace only grow, by
appending. -/
def Ext (st st' : WalkState) : Prop :=
  ∃ p tr, st'.published = st.published ++ p ∧ st'.trace = st.trace ++ tr

/-- Postcondition of a successful walk over `ls` from `st`: the invariant
is preserved, the state only grew, every name of the worklist ends up
published, and every newly published member is rank-bounded by some
worklist name (nothing above the worklist gets published). -/
def OkPost (f : String → Nat → Bool) (g : Graph) (rk : String → Nat)
    (ls : List String) (st st' : WalkState) : Prop :=
  Inv f g st' ∧ Ext st st' ∧ (∀ c ∈ ls, c ∈ st'.published) ∧
    ∀ m ∈ st'.published, m ∈ st.published ∨ ∃ c ∈ ls, rk m ≤ rk c

/-- Postcondition of a walk dying on `missingKey m`: the invariant holds
at death, `m` really is no key of the graph, `m` was never published nor
attempted, and `m` was reached as a worklist name or as a recorded edge. -/
def MissPost (f : String → Nat → Bool) (g : Graph) (ls : List String)
    (st : WalkState) (m : String) (st' : WalkState) : Prop :=
  Inv f g st' ∧ Ext st st' ∧ getDeps g m = none ∧ m ∉ st'.published ∧
    (m ∈ ls ∨ ∃ c ds, getDeps g c = some ds ∧ m ∈ ds)

/-- Postcondition of a walk dying on `publishFailed m`: the state only
grew, `m`'s retry-wrapped publish failed, `m` is a key, the final trace
still marks members at most once and calls only after dependencies, and
the final state is an invariant state extended by exactly `m`'s retry
events — in particular nothing at all happens after them. -/
def FailPost (f : String → Nat → Bool) (g : Graph) (st : WalkState)
    (m : String) (st' : WalkState) : Prop :=
  Ext st st' ∧ (retry_publish f m).2 = false ∧ (getDeps g m).isSome = true ∧
    AtMostOncePub st'.trace ∧ CallsAfterDeps g st'.trace ∧
    ∃ stM, Inv f g stM ∧ st'.published = stM.published ∧
      st'.trace = stM.trace ++ (retry_publish f m).1 ∧ m ∉ stM.published

end Armory

namespace Armory

/-! ### Basic facts about the graph, state extension and the retry loop -/

theorem getDeps_isSome_iff {g : Graph} {k : String} :
    (getDeps g k).isSome = true ↔ k ∈ keys g := by
  induction g with
  | nil => simp [getDeps, keys]
  | cons p rest ih =>
    obtain ⟨n, ds⟩ := p
    by_cases h : n = k
    · subst h; simp [getDeps, keys]
    · simp [getDeps, keys, h, ih, Ne.symm h]

theorem getDeps_mem {g : Graph} {k : String} {ds : List String}
    (h : getDeps g k = some ds) : (k, ds) ∈ g := by
  induction g with
  | nil => simp [getDeps] at h
  | cons p rest ih =>
    obtain ⟨n, ds'⟩ := p
    by_cases hn : n = k
    · subst hn
      simp [getDeps] at h
      simp [h]
    · simp [getDeps, hn] at h
      simp [ih h]

theorem Ext_refl (st : WalkState) : Ext st st := ⟨[], [], by simp, by simp⟩

theorem Ext_trans {st1 st2 st3 : WalkState} (h1 : Ext st1 st2) (h2 : Ext st2 st3) :
    Ext st1 st3 := by
  obtain ⟨p1, t1, hp1, ht1⟩ := h1
  obtain ⟨p2, t2, hp2, ht2⟩ := h2
  exact ⟨p1 ++ p2, t1 ++ t2, by simp [hp2, hp1], by simp [ht2, ht1]⟩

theorem Ext_mem_published {st st' : WalkState} (h : Ext st st') {m : String}
    (hm : m ∈ st.published) : m ∈ st'.published := by
  obtain ⟨p, t, hp, _⟩ := h
  simp [hp, hm]

theorem retry_go_calls (f : String → Nat → Bool) (m : String) :
    ∀ k t, ∀ e ∈ (retry_go f m t k).1, ∃ u, e = Ev.call m u := by
  intro k
  induction k with
  | zero => intro t e he; simp [retry_go] at he
  | succ k ih =>
    intro t e he
    by_cases h1 : f m t
    · simp [retry_go, h1] at he; exact ⟨t, he⟩
    · by_cases h2 : 5 < t
      · simp [retry_go, h1, h2] at he; exact ⟨t, he⟩
      · simp [retry_go, h1, h2] at he
        rcases he with he | he
        · exact ⟨t, he⟩
        · exact ih (t + 1) e he

theorem retry_calls (f : String → Nat → Bool) (m : String) :
    ∀ e ∈ (retry_publish f m).1, ∃ u, e = Ev.call m u :=
  retry_go_calls f m 6 1

theorem pub_not_mem_retry (f : String → Nat → Bool) (m n : String) :
    Ev.pub n ∉ (retry_publish f m).1 := by
  intro h
  obtain ⟨u, hu⟩ := retry_calls f m _ h
  exact Ev.noConfusion hu

theorem count_pub_retry (f : String → Nat → Bool) (m n : String) :
    ((retry_publish f m).1).count (Ev.pub n) = 0 :=
  List.count_eq_zero.mpr (pub_not_mem_retry f m n)

/-- A publish function that always fails on `m` makes the retry wrapper
perform exactly the six tries 1..6 and then die. -/
theorem retry_fail_all (f : String → Nat → Bool) (m : String) (h : ∀ t, f m t = false) :
    retry_publish f m = ([Ev.call m 1, Ev.call m 2, Ev.call m 3, Ev.call m 4, Ev.call m 5,
      Ev.call m 6], false) := by
  simp [retry_publish, retry_go, h]

/-- A publish function that succeeds at once performs exactly one call. -/
theorem retry_first_true (f : String → Nat → Bool) (m : String) (h : f m 1 = true) :
    retry_publish f m = ([Ev.call m 1], true) := by
  simp [retry_publish, retry_go, h]

/-! ### Branch equations of the walk -/

theorem publish_crates_mem (f g fuel) {c : String} (cs : List String) {st : WalkState} (h : c ∈ st.published) :
    publish_crates f g (fuel + 1) (c :: cs) st = publish_crates f g fuel cs st := by
  simp [publish_crates, h]

theorem publish_crates_missing (f g fuel) {c : String} (cs : List String) {st : WalkState} (hc : c ∉ st.published)
    (hd : getDeps g c = none) :
    publish_crates f g (fuel + 1) (c :: cs) st = some (Except.error (Panic.missingKey c, st)) := by
  simp [publish_crates, hc, hd]

theorem publish_crates_ok_true (f g fuel) {c : String} (cs : List String) {st deps st1}
    (hc : c ∉ st.published) (hd : getDeps g c = some deps)
    (hres : publish_crates f g fuel deps st = some (Except.ok st1))
    (hr : (retry_publish f c).2 = true) :
    publish_crates f g (fuel + 1) (c :: cs) st =
      publish_crates f g fuel cs
        ⟨st1.published ++ [c], st1.trace ++ ((retry_publish f c).1 ++ [Ev.pub c])⟩ := by
  simp [publish_crates, hc, hd, hres, hr]

theorem publish_crates_ok_false (f g fuel) {c : String} (cs : List String) {st deps st1}
    (hc : c ∉ st.published) (hd : getDeps g c = some deps)
    (hres : publish_crates f g fuel deps st = some (Except.ok st1))
    (hr : (retry_publish f c).2 = false) :
    publish_crates f g (fuel + 1) (c :: cs) st =
      some (Except.error (Panic.publishFailed c,
        ⟨st1.published, st1.trace ++ (retry_publish f c).1⟩)) := by
  simp [publish_crates, hc, hd, hres, hr]

theorem publish_crates_err (f g fuel) {c : String} (cs : List String) {st deps e}
    (hc : c ∉ st.published) (hd : getDeps g c = some deps)
    (hres : publish_crates f g fuel deps st = some (Except.error e)) :
    publish_crates f g (fuel + 1) (c :: cs) st = some (Except.error e) := by
  simp [publish_crates, hc, hd, hres]

theorem publish_crates_none (f g fuel) {c : String} (cs : List String) {st deps}
    (hc : c ∉ st.published) (hd : getDeps g c = some deps)
    (hres : publish_crates f g fuel deps st = none) :
    publish_crates f g (fuel + 1) (c :: cs) st = none := by
  simp [publish_crates, hc, hd, hres]

/-- The walk itself never dies on the `toml_edit` indexing panic: that
panic belongs to the rewriting pass, which is over before the walk
starts. -/
theorem publish_crates_no_manifestIndex (f : String → Nat → Bool) (g : Graph) :
    ∀ fuel ls st st',
      publish_crates f g fuel ls st ≠ some (Except.error (Panic.manifestIndex, st')) := by
  intro fuel
  induction fuel with
  | zero => intro ls st st' h; simp [publish_crates] at h
  | succ fuel IH =>
    intro ls st st' h
    cases ls with
    | nil => simp [publish_crates] at h
    | cons c cs =>
      by_cases hc : c ∈ st.published
      · rw [publish_crates_mem f g fuel cs hc] at h
        exact IH cs st st' h
      · cases hd : getDeps g c with
        | none =>
          rw [publish_crates_missing f g fuel cs hc hd] at h
          simp at h
        | some deps =>
          cases hres : publish_crates f g fuel deps st with
          | none =>
            rw [publish_crates_none f g fuel cs hc hd hres] at h
            simp at h
          | some r =>
            cases r with
            | error e =>
              rw [publish_crates_err f g fuel cs hc hd hres] at h
              simp at h
              obtain ⟨rfl, rfl⟩ := h
              exact IH deps st st' hres
            | ok st1 =>
              cases hr : (retry_publish f c).2 with
              | true =>
                rw [publish_crates_ok_true f g fuel cs hc hd hres hr] at h
                exact IH cs _ st' h
              | false =>
                rw [publish_crates_ok_false f g fuel cs hc hd hres hr] at h
                simp at h

/-! ### Invariant facts -/

theorem Inv_init (f : String → Nat → Bool) (g : Graph) : Inv f g ⟨[], []⟩ := by
  refine ⟨by simp, ?_, by simp, by simp⟩
  intro l1 m t l2 h
  exact absurd h.symm (by simp)

theorem pub_mem_of_published {f g} {st : WalkState} (hInv : Inv f g st) {m : String}
    (hm : m ∈ st.published) : Ev.pub m ∈ st.trace := by
  have := hInv.pubCount m
  rw [if_pos hm] at this
  exact List.count_pos_iff.mp (by omega)

theorem atMostOnce_of_Inv {f g} {st : WalkState} (hInv : Inv f g st) :
    AtMostOncePub st.trace := by
  intro m
  have := hInv.pubCount m
  by_cases hm : m ∈ st.published <;> simp [hm] at this <;> omega

theorem callsAfterDeps_append {g : Graph} {tr suf : List Ev}
    (h1 : CallsAfterDeps g tr)
    (h2 : ∀ m t, Ev.call m t ∈ suf → ∀ ds, getDeps g m = some ds → ∀ d ∈ ds, Ev.pub d ∈ tr) :
    CallsAfterDeps g (tr ++ suf) := by
  intro l1 m t l2 heq ds hds d hd
  rcases List.append_eq_append_iff.mp heq with ⟨a, ha1, ha2⟩ | ⟨c, hc1, hc2⟩
  · subst ha1
    exact List.mem_append_left _
      (h2 m t (ha2 ▸ List.mem_append_right _ (List.mem_cons_self _ _)) ds hds d hd)
  · match c, hc2 with
    | [], hc2 =>
      simp at hc1 hc2
      subst hc1
      exact h2 m t (hc2 ▸ List.mem_cons_self _ _) ds hds d hd
    | e :: c', hc2 =>
      simp at hc2
      obtain ⟨he, hl2⟩ := hc2
      subst he
      exact h1 l1 m t c' (by simp [hc1]) ds hds d hd

end Armory

namespace Armory

/-! ### The walk invariant is preserved; the walk terminates -/

/-- Main invariant lemma of the publish walk: from an invariant state,
a returning walk ends in one of the three characterized outcomes. -/
theorem publish_crates_post (f : String → Nat → Bool) (g : Graph) (rk : String → Nat)
    (hrk : IsRank g rk) :
    ∀ fuel ls st, Inv f g st →
      (∀ st', publish_crates f g fuel ls st = some (Except.ok st') →
        OkPost f g rk ls st st') ∧
      (∀ m st', publish_crates f g fuel ls st = some (Except.error (Panic.missingKey m, st')) →
        MissPost f g ls st m st') ∧
      (∀ m st', publish_crates f g fuel ls st = some (Except.error (Panic.publishFailed m, st')) →
        FailPost f g st m st') := by
  intro fuel
  induction fuel with
  | zero =>
    intro ls st _
    refine ⟨fun st' h => ?_, fun m st' h => ?_, fun m st' h => ?_⟩ <;>
      simp [publish_crates] at h
  | succ fuel IH =>
    intro ls st hInv
    cases ls with
    | nil =>
      refine ⟨fun st' h => ?_, fun m st' h => ?_, fun m st' h => ?_⟩
      · have hst : st = st' := by simpa [publish_crates] using h
        subst hst
        exact ⟨hInv, Ext_refl st, by simp, fun m hm => Or.inl hm⟩
      · simp [publish_crates] at h
      · simp [publish_crates] at h
    | cons c cs =>
      by_cases hc : c ∈ st.published
      · have hstep := publish_crates_mem f g fuel cs hc
        have IHcs := IH cs st hInv
        refine ⟨fun st' h => ?_, fun m st' h => ?_, fun m st' h => ?_⟩
        · rw [hstep] at h
          obtain ⟨hI, hE, hall, hnew⟩ := IHcs.1 st' h
          refine ⟨hI, hE, fun c' hc' => ?_, fun m hm => ?_⟩
          · rcases List.mem_cons.mp hc' with rfl | hc'
            · exact Ext_mem_published hE hc
            · exact hall c' hc'
          · rcases hnew m hm with h' | ⟨c', hc', hr⟩
            · exact Or.inl h'
            · exact Or.inr ⟨c', List.mem_cons_of_mem _ hc', hr⟩
        · rw [hstep] at h
          obtain ⟨hI, hE, hgd, hnm, hprov⟩ := IHcs.2.1 m st' h
          refine ⟨hI, hE, hgd, hnm, ?_⟩
          rcases hprov with h' | h'
          · exact Or.inl (List.mem_cons_of_mem _ h')
          · exact Or.inr h'
        · rw [hstep] at h
          exact IHcs.2.2 m st' h
      · cases hd : getDeps g c with
        | none =>
          have hstep := publish_crates_missing f g fuel cs hc hd
          refine ⟨fun st' h => ?_, fun m st' h => ?_, fun m st' h => ?_⟩
          · rw [hstep] at h; simp at h
          · rw [hstep] at h
            simp at h
            obtain ⟨rfl, rfl⟩ := h
            exact ⟨hInv, Ext_refl st, hd, hc, Or.inl (List.mem_cons_self c cs)⟩
          · rw [hstep] at h; simp at h
        | some deps =>
          have hrkdeps : ∀ d ∈ deps, rk d < rk c :=
            fun d hd' => hrk (c, deps) (getDeps_mem hd) d hd'
          have IHdeps := IH deps st hInv
          cases hres : publish_crates f g fuel deps st with
          | none =>
            have hstep := publish_crates_none f g fuel cs hc hd hres
            refine ⟨fun st' h => ?_, fun m st' h => ?_, fun m st' h => ?_⟩ <;>
              rw [hstep] at h <;> simp at h
          | some r =>
            cases r with
            | error e =>
              obtain ⟨pk, stE⟩ := e
              have hstep := publish_crates_err f g fuel cs hc hd hres
              cases pk with
              | missingKey m0 =>
                obtain ⟨hI, hE, hgd, hnm, hprov⟩ := IHdeps.2.1 m0 stE hres
                refine ⟨fun st' h => ?_, fun m st' h => ?_, fun m st' h => ?_⟩
                · rw [hstep] at h; simp at h
                · rw [hstep] at h
                  simp at h
                  obtain ⟨rfl, rfl⟩ := h
                  refine ⟨hI, hE, hgd, hnm, Or.inr ?_⟩
                  rcases hprov with h' | h'
                  · exact ⟨c, deps, hd, h'⟩
                  · exact h'
                · rw [hstep] at h; simp at h
              | publishFailed m0 =>
                have hfail := IHdeps.2.2 m0 stE hres
                refine ⟨fun st' h => ?_, fun m st' h => ?_, fun m st' h => ?_⟩
                · rw [hstep] at h; simp at h
                · rw [hstep] at h; simp at h
                · rw [hstep] at h
                  simp at h
                  obtain ⟨rfl, rfl⟩ := h
                  exact hfail
              | manifestIndex =>
                exact absurd hres (publish_crates_no_manifestIndex f g fuel deps st stE)
            | ok st1 =>
              obtain ⟨hInv1, hExt1, hdepsPub, hNew1⟩ := IHdeps.1 st1 hres
              have hc1 : c ∉ st1.published := by
                intro hmem
                rcases hNew1 c hmem with h' | ⟨d, hd', hr⟩
                · exact hc h'
                · have := hrkdeps d hd'
                  omega
              have hpubdeps : ∀ d ∈ deps, Ev.pub d ∈ st1.trace :=
                fun d hd' => pub_mem_of_published hInv1 (hdepsPub d hd')
              have hsufcalls : ∀ m t, Ev.call m t ∈ (retry_publish f c).1 →
                  ∀ ds, getDeps g m = some ds → ∀ d ∈ ds, Ev.pub d ∈ st1.trace := by
                intro m t hmem ds hds d hd'
                obtain ⟨u, hu⟩ := retry_calls f c _ hmem
                cases hu
                rw [hd] at hds
                cases hds
                exact hpubdeps d hd'
              cases hr : (retry_publish f c).2 with
              | true =>
                have hstep := publish_crates_ok_true f g fuel cs hc hd hres hr
                have hInv3 : Inv f g ⟨st1.published ++ [c],
                    st1.trace ++ ((retry_publish f c).1 ++ [Ev.pub c])⟩ := by
                  refine ⟨fun m => ?_, ?_, fun m t hmem => ?_, fun m hm => ?_⟩
                  · show (st1.trace ++ ((retry_publish f c).1 ++ [Ev.pub c])).count (Ev.pub m) = _
                    rw [List.count_append, List.count_append, count_pub_retry]
                    by_cases hmc : m = c
                    · subst hmc
                      rw [hInv1.pubCount m, if_neg hc1]
                      simp
                    · rw [hInv1.pubCount m]
                      have h0 : List.count (Ev.pub m) [Ev.pub c] = 0 := by
                        simp [List.count_cons, hmc]
                      rw [h0]
                      by_cases hm1 : m ∈ st1.published
                      · simp [List.mem_append, hm1, hmc]
                      · simp [List.mem_append, hm1, hmc]
                  · show CallsAfterDeps g (st1.trace ++ ((retry_publish f c).1 ++ [Ev.pub c]))
                    refine callsAfterDeps_append hInv1.depsBefore ?_
                    intro m t hmem ds hds d hd'
                    rcases List.mem_append.mp hmem with hm | hm
                    · exact hsufcalls m t hm ds hds d hd'
                    · simp at hm
                  · show m ∈ st1.published ++ [c]
                    rcases List.mem_append.mp hmem with hm | hm
                    · exact List.mem_append_left _ (hInv1.callsPub m t hm)
                    · rcases List.mem_append.mp hm with hm' | hm'
                      · obtain ⟨u, hu⟩ := retry_calls f c _ hm'
                        cases hu
                        simp
                      · simp at hm'
                  · rcases List.mem_append.mp hm with hm' | hm'
                    · exact hInv1.pubOk m hm'
                    · simp at hm'
                      subst hm'
                      exact hr
                have IHcs := IH cs ⟨st1.published ++ [c],
                  st1.trace ++ ((retry_publish f c).1 ++ [Ev.pub c])⟩ hInv3
                have hExt13 : Ext st1 ⟨st1.published ++ [c],
                    st1.trace ++ ((retry_publish f c).1 ++ [Ev.pub c])⟩ :=
                  ⟨[c], (retry_publish f c).1 ++ [Ev.pub c], rfl, rfl⟩
                have hExt3 := Ext_trans hExt1 hExt13
                refine ⟨fun st' h => ?_, fun m st' h => ?_, fun m st' h => ?_⟩
                · rw [hstep] at h
                  obtain ⟨hI, hE, hall, hnew⟩ := IHcs.1 st' h
                  refine ⟨hI, Ext_trans hExt3 hE, fun c' hc' => ?_, fun m hm => ?_⟩
                  · rcases List.mem_cons.mp hc' with rfl | hc'
                    · exact Ext_mem_published hE (by simp)
                    · exact hall c' hc'
                  · rcases hnew m hm with hm3 | ⟨c', hc', hrk'⟩
                    · rcases List.mem_append.mp hm3 with hm1 | hm1
                      · rcases hNew1 m hm1 with h' | ⟨d, hd', hrk'⟩
                        · exact Or.inl h'
                        · exact Or.inr ⟨c, List.mem_cons_self _ _,
                            le_of_lt (lt_of_le_of_lt hrk' (hrkdeps d hd'))⟩
                      · simp at hm1
                        exact Or.inr ⟨c, List.mem_cons_self _ _, by rw [hm1]⟩
                    · exact Or.inr ⟨c', List.mem_cons_of_mem _ hc', hrk'⟩
                · rw [hstep] at h
                  obtain ⟨hI, hE, hgd, hnm, hprov⟩ := IHcs.2.1 m st' h
                  refine ⟨hI, Ext_trans hExt3 hE, hgd, hnm, ?_⟩
                  rcases hprov with h' | h'
                  · exact Or.inl (List.mem_cons_of_mem _ h')
                  · exact Or.inr h'
                · rw [hstep] at h
                  obtain ⟨hE, hrf, hgds, hamo, hcad, hstM⟩ := IHcs.2.2 m st' h
                  exact ⟨Ext_trans hExt3 hE, hrf, hgds, hamo, hcad, hstM⟩
              | false =>
                have hstep := publish_crates_ok_false f g fuel cs hc hd hres hr
                refine ⟨fun st' h => ?_, fun m st' h => ?_, fun m st' h => ?_⟩
                · rw [hstep] at h; simp at h
                · rw [hstep] at h; simp at h
                · rw [hstep] at h
                  simp at h
                  obtain ⟨rfl, rfl⟩ := h
                  obtain ⟨p1, t1, hp1, ht1⟩ := hExt1
                  refine ⟨⟨p1, t1 ++ (retry_publish f c).1, by simpa using hp1, by simp [ht1]⟩,
                    hr, by rw [hd]; rfl, fun m' => ?_, ?_, st1, hInv1, rfl, rfl, hc1⟩
                  · show (st1.trace ++ (retry_publish f c).1).count (Ev.pub m') ≤ 1
                    rw [List.count_append, count_pub_retry]
                    have := atMostOnce_of_Inv hInv1 m'
                    omega
                  · show CallsAfterDeps g (st1.trace ++ (retry_publish f c).1)
                    exact callsAfterDeps_append hInv1.depsBefore hsufcalls

theorem publish_crates_total (f : String → Nat → Bool) (g : Graph) (rk : String → Nat)
    (hrk : IsRank g rk) :
    ∀ B ls, (∀ c ∈ ls, rk c < B) →
      ∃ N, ∀ st fuel, N ≤ fuel → (publish_crates f g fuel ls st).isSome = true := by
  intro B
  induction B with
  | zero =>
    intro ls hls
    cases ls with
    | nil =>
      refine ⟨1, fun st fuel hf => ?_⟩
      match fuel, hf with
      | fuel + 1, _ => simp [publish_crates]
    | cons c cs => exact absurd (hls c (List.mem_cons_self c cs)) (by omega)
  | succ B IHB =>
    intro ls
    induction ls with
    | nil =>
      intro _
      refine ⟨1, fun st fuel hf => ?_⟩
      match fuel, hf with
      | fuel + 1, _ => simp [publish_crates]
    | cons c cs IHls =>
      intro hls
      obtain ⟨N1, hN1⟩ := IHls (fun x hx => hls x (List.mem_cons_of_mem _ hx))
      cases hd : getDeps g c with
      | none =>
        refine ⟨N1 + 1, fun st fuel hf => ?_⟩
        match fuel, hf with
        | fuel + 1, hf =>
          by_cases hc : c ∈ st.published
          · rw [publish_crates_mem f g fuel cs hc]
            exact hN1 st fuel (by omega)
          · simp [publish_crates, hc, hd]
      | some deps =>
        have hdeps : ∀ d ∈ deps, rk d < B := by
          intro d hd'
          have h1 := hrk (c, deps) (getDeps_mem hd) d hd'
          have h2 := hls c (List.mem_cons_self c cs)
          simp at h1
          omega
        obtain ⟨N0, hN0⟩ := IHB deps hdeps
        refine ⟨max N0 N1 + 1, fun st fuel hf => ?_⟩
        match fuel, hf with
        | fuel + 1, hf =>
          by_cases hc : c ∈ st.published
          · rw [publish_crates_mem f g fuel cs hc]
            exact hN1 st fuel (by omega)
          · have hin := hN0 st fuel (by omega)
            cases hres : publish_crates f g fuel deps st with
            | none => rw [hres] at hin; simp at hin
            | some r =>
              cases r with
              | error e =>
                rw [publish_crates_err f g fuel cs hc hd hres]
                rfl
              | ok st1 =>
                cases hr : (retry_publish f c).2 with
                | true =>
                  rw [publish_crates_ok_true f g fuel cs hc hd hres hr]
                  exact hN1 _ fuel (by omega)
                | false =>
                  rw [publish_crates_ok_false f g fuel cs hc hd hres hr]
                  rfl

theorem publish_crates_calls (f : String → Nat → Bool) (g : Graph) :
    ∀ fuel ls st, (∀ m t, Ev.call m t ∈ st.trace → m ∈ st.published) →
      (∀ st', publish_crates f g fuel ls st = some (Except.ok st') →
        ∀ m t, Ev.call m t ∈ st'.trace → m ∈ st'.published) ∧
      (∀ m st', publish_crates f g fuel ls st = some (Except.error (Panic.missingKey m, st')) →
        getDeps g m = none ∧ m ∉ st'.published ∧ ∀ t, Ev.call m t ∉ st'.trace) := by
  intro fuel
  induction fuel with
  | zero =>
    intro ls st _
    refine ⟨fun st' h => ?_, fun m st' h => ?_⟩ <;> simp [publish_crates] at h
  | succ fuel IH =>
    intro ls st hcp
    cases ls with
    | nil =>
      refine ⟨fun st' h => ?_, fun m st' h => ?_⟩
      · have hst : st = st' := by simpa [publish_crates] using h
        subst hst
        exact hcp
      · simp [publish_crates] at h
    | cons c cs =>
      by_cases hc : c ∈ st.published
      · have hstep := publish_crates_mem f g fuel cs hc
        have IHcs := IH cs st hcp
        exact ⟨fun st' h => IHcs.1 st' (hstep ▸ h), fun m st' h => IHcs.2 m st' (hstep ▸ h)⟩
      · cases hd : getDeps g c with
        | none =>
          refine ⟨fun st' h => ?_, fun m st' h => ?_⟩
          · rw [show publish_crates f g (fuel + 1) (c :: cs) st =
              some (Except.error (Panic.missingKey c, st)) by simp [publish_crates, hc, hd]] at h
            simp at h
          · rw [show publish_crates f g (fuel + 1) (c :: cs) st =
              some (Except.error (Panic.missingKey c, st)) by simp [publish_crates, hc, hd]] at h
            simp at h
            obtain ⟨rfl, rfl⟩ := h
            exact ⟨hd, hc, fun t hmem => hc (hcp c t hmem)⟩
        | some deps =>
          have IHdeps := IH deps st hcp
          cases hres : publish_crates f g fuel deps st with
          | none =>
            have : publish_crates f g (fuel + 1) (c :: cs) st = none := by
              simp [publish_crates, hc, hd, hres]
            refine ⟨fun st' h => ?_, fun m st' h => ?_⟩ <;> rw [this] at h <;> simp at h
          | some r =>
            cases r with
            | error e =>
              obtain ⟨pk, stE⟩ := e
              have hstep := publish_crates_err f g fuel cs hc hd hres
              refine ⟨fun st' h => ?_, fun m st' h => ?_⟩
              · rw [hstep] at h; simp at h
              · rw [hstep] at h
                cases pk with
                | missingKey m0 =>
                  simp at h
                  obtain ⟨rfl, rfl⟩ := h
                  exact IHdeps.2 m0 stE hres
                | publishFailed m0 => simp at h
                | manifestIndex =>
                  exact absurd hres (publish_crates_no_manifestIndex f g fuel deps st stE)
            | ok st1 =>
              have hcp1 := IHdeps.1 st1 hres
              cases hr : (retry_publish f c).2 with
              | true =>
                have hstep := publish_crates_ok_true f g fuel cs hc hd hres hr
                have hcp3 : ∀ m t, Ev.call m t ∈
                    (⟨st1.published ++ [c], st1.trace ++ ((retry_publish f c).1 ++ [Ev.pub c])⟩ :
                      WalkState).trace → m ∈
                    (⟨st1.published ++ [c], st1.trace ++ ((retry_publish f c).1 ++ [Ev.pub c])⟩ :
                      WalkState).published := by
                  intro m t hmem
                  show m ∈ st1.published ++ [c]
                  rcases List.mem_append.mp hmem with hm | hm
                  · exact List.mem_append_left _ (hcp1 m t hm)
                  · rcases List.mem_append.mp hm with hm' | hm'
                    · obtain ⟨u, hu⟩ := retry_calls f c _ hm'
                      cases hu
                      simp
                    · simp at hm'
                have IHcs := IH cs ⟨st1.published ++ [c],
                  st1.trace ++ ((retry_publish f c).1 ++ [Ev.pub c])⟩ hcp3
                exact ⟨fun st' h => IHcs.1 st' (hstep ▸ h), fun m st' h => IHcs.2 m st' (hstep ▸ h)⟩
              | false =>
                have hstep := publish_crates_ok_false f g fuel cs hc hd hres hr
                refine ⟨fun st' h => ?_, fun m st' h => ?_⟩ <;> rw [hstep] at h <;> simp at h

/-! ### Manifest rewriting -/

theorem getVal_setKey_self (kvs : Doc) (k : String) (v : Toml) :
    getVal (setKey kvs k v) k = some v := by
  induction kvs with
  | nil => simp [setKey, getVal]
  | cons p rest ih =>
    obtain ⟨n, x⟩ := p
    by_cases h : n = k
    · subst h; simp [setKey, getVal]
    · simp [setKey, getVal, h, ih]

theorem getVal_setKey_ne (kvs : Doc) {k k' : String} (v : Toml) (h : k' ≠ k) :
    getVal (setKey kvs k v) k' = getVal kvs k' := by
  induction kvs with
  | nil => simp [setKey, getVal, Ne.symm h]
  | cons p rest ih =>
    obtain ⟨n, x⟩ := p
    by_cases hn : n = k
    · subst hn
      simp [setKey, getVal, Ne.symm h]
    · by_cases hn' : n = k'
      · subst hn'; simp [setKey, getVal, hn]
      · simp [setKey, getVal, hn, hn', ih]

theorem updateDeps_forall₂_mono (v : String) (kvs : Doc) :
    ∀ locals, (∀ d ∈ (updateDeps v kvs).2, d ∈ locals) →
      List.Forall₂ (DepRewritten v locals) kvs (updateDeps v kvs).1 := by
  induction kvs with
  | nil => intro locals _; simp [updateDeps]
  | cons p rest ih =>
    intro locals hsub
    obtain ⟨n, dep⟩ := p
    match dep with
    | Toml.str s =>
      simp only [updateDeps]
      exact List.Forall₂.cons ⟨rfl, Or.inr ⟨rfl, rfl⟩⟩
        (ih locals (fun d hd => hsub d (by simp only [updateDeps]; exact hd)))
    | Toml.other s =>
      simp only [updateDeps]
      exact List.Forall₂.cons ⟨rfl, Or.inr ⟨rfl, rfl⟩⟩
        (ih locals (fun d hd => hsub d (by simp only [updateDeps]; exact hd)))
    | Toml.table kvs' =>
      cases hp : getVal kvs' "path" with
      | none =>
        simp only [updateDeps, hp]
        exact List.Forall₂.cons ⟨rfl, Or.inr ⟨by simp [hasLocalPath, hp], rfl⟩⟩
          (ih locals (fun d hd => hsub d (by simp only [updateDeps, hp]; exact hd)))
      | some pv =>
        cases pv with
        | str s =>
          simp only [updateDeps, hp]
          refine List.Forall₂.cons
            ⟨rfl, Or.inl ⟨by simp [hasLocalPath, hp],
              by simp [depVersion, getVal_setKey_self],
              hsub (trimName n) (by simp only [updateDeps, hp]; exact List.mem_cons_self _ _)⟩⟩
            (ih locals (fun d hd => hsub d ?_))
          simp only [updateDeps, hp]
          exact List.mem_cons_of_mem _ hd
        | table t =>
          simp only [updateDeps, hp]
          exact List.Forall₂.cons ⟨rfl, Or.inr ⟨by simp [hasLocalPath, hp], rfl⟩⟩
            (ih locals (fun d hd => hsub d (by simp only [updateDeps, hp]; exact hd)))
        | inlineTable t =>
          simp only [updateDeps, hp]
          exact List.Forall₂.cons ⟨rfl, Or.inr ⟨by simp [hasLocalPath, hp], rfl⟩⟩
            (ih locals (fun d hd => hsub d (by simp only [updateDeps, hp]; exact hd)))
        | other s =>
          simp only [updateDeps, hp]
          exact List.Forall₂.cons ⟨rfl, Or.inr ⟨by simp [hasLocalPath, hp], rfl⟩⟩
            (ih locals (fun d hd => hsub d (by simp only [updateDeps, hp]; exact hd)))
    | Toml.inlineTable kvs' =>
      cases hp : getVal kvs' "path" with
      | none =>
        simp only [updateDeps, hp]
        exact List.Forall₂.cons ⟨rfl, Or.inr ⟨by simp [hasLocalPath, hp], rfl⟩⟩
          (ih locals (fun d hd => hsub d (by simp only [updateDeps, hp]; exact hd)))
      | some pv =>
        cases pv with
        | str s =>
          simp only [updateDeps, hp]
          refine List.Forall₂.cons
            ⟨rfl, Or.inl ⟨by simp [hasLocalPath, hp],
              by simp [depVersion, getVal_setKey_self],
              hsub (trimName n) (by simp only [updateDeps, hp]; exact List.mem_cons_self _ _)⟩⟩
            (ih locals (fun d hd => hsub d ?_))
          simp only [updateDeps, hp]
          exact List.mem_cons_of_mem _ hd
        | table t =>
          simp only [updateDeps, hp]
          exact List.Forall₂.cons ⟨rfl, Or.inr ⟨by simp [hasLocalPath, hp], rfl⟩⟩
            (ih locals (fun d hd => hsub d (by simp only [updateDeps, hp]; exact hd)))
        | inlineTable t =>
          simp only [updateDeps, hp]
          exact List.Forall₂.cons ⟨rfl, Or.inr ⟨by simp [hasLocalPath, hp], rfl⟩⟩
            (ih locals (fun d hd => hsub d (by simp only [updateDeps, hp]; exact hd)))
        | other s =>
          simp only [updateDeps, hp]
          exact List.Forall₂.cons ⟨rfl, Or.inr ⟨by simp [hasLocalPath, hp], rfl⟩⟩
            (ih locals (fun d hd => hsub d (by simp only [updateDeps, hp]; exact hd)))

theorem updateDeps_forall₂ (v : String) (kvs : Doc) :
    List.Forall₂ (DepRewritten v (updateDeps v kvs).2) kvs (updateDeps v kvs).1 :=
  updateDeps_forall₂_mono v kvs _ (fun _ hd => hd)

theorem updateDeps_locals_sound (v : String) (kvs : Doc) :
    ∀ d ∈ (updateDeps v kvs).2, ∃ n e, (n, e) ∈ kvs ∧ d = trimName n ∧
      hasLocalPath e = true := by
  induction kvs with
  | nil => simp [updateDeps]
  | cons p rest ih =>
    intro d hd
    obtain ⟨n, dep⟩ := p
    match dep with
    | Toml.str s =>
      simp only [updateDeps] at hd
      obtain ⟨n', e', h1, h2, h3⟩ := ih d hd
      exact ⟨n', e', List.mem_cons_of_mem _ h1, h2, h3⟩
    | Toml.other s =>
      simp only [updateDeps] at hd
      obtain ⟨n', e', h1, h2, h3⟩ := ih d hd
      exact ⟨n', e', List.mem_cons_of_mem _ h1, h2, h3⟩
    | Toml.table kvs' =>
      cases hp : getVal kvs' "path" with
      | none =>
        simp only [updateDeps, hp] at hd
        obtain ⟨n', e', h1, h2, h3⟩ := ih d hd
        exact ⟨n', e', List.mem_cons_of_mem _ h1, h2, h3⟩
      | some pv =>
        cases pv with
        | str s =>
          simp only [updateDeps, hp] at hd
          rcases List.mem_cons.mp hd with rfl | hd
          · exact ⟨n, Toml.table kvs', List.mem_cons_self _ _, rfl,
              by simp [hasLocalPath, hp]⟩
          · obtain ⟨n', e', h1, h2, h3⟩ := ih d hd
            exact ⟨n', e', List.mem_cons_of_mem _ h1, h2, h3⟩
        | table t =>
          simp only [updateDeps, hp] at hd
          obtain ⟨n', e', h1, h2, h3⟩ := ih d hd
          exact ⟨n', e', List.mem_cons_of_mem _ h1, h2, h3⟩
        | inlineTable t =>
          simp only [updateDeps, hp] at hd
          obtain ⟨n', e', h1, h2, h3⟩ := ih d hd
          exact ⟨n', e', List.mem_cons_of_mem _ h1, h2, h3⟩
        | other s =>
          simp only [updateDeps, hp] at hd
          obtain ⟨n', e', h1, h2, h3⟩ := ih d hd
          exact ⟨n', e', List.mem_cons_of_mem _ h1, h2, h3⟩
    | Toml.inlineTable kvs' =>
      cases hp : getVal kvs' "path" with
      | none =>
        simp only [updateDeps, hp] at hd
        obtain ⟨n', e', h1, h2, h3⟩ := ih d hd
        exact ⟨n', e', List.mem_cons_of_mem _ h1, h2, h3⟩
      | some pv =>
        cases pv with
        | str s =>
          simp only [updateDeps, hp] at hd
          rcases List.mem_cons.mp hd with rfl | hd
          · exact ⟨n, Toml.inlineTable kvs', List.mem_cons_self _ _, rfl,
              by simp [hasLocalPath, hp]⟩
          · obtain ⟨n', e', h1, h2, h3⟩ := ih d hd
            exact ⟨n', e', List.mem_cons_of_mem _ h1, h2, h3⟩
        | table t =>
          simp only [updateDeps, hp] at hd
          obtain ⟨n', e', h1, h2, h3⟩ := ih d hd
          exact ⟨n', e', List.mem_cons_of_mem _ h1, h2, h3⟩
        | inlineTable t =>
          simp only [updateDeps, hp] at hd
          obtain ⟨n', e', h1, h2, h3⟩ := ih d hd
          exact ⟨n', e', List.mem_cons_of_mem _ h1, h2, h3⟩
        | other s =>
          simp only [updateDeps, hp] at hd
          obtain ⟨n', e', h1, h2, h3⟩ := ih d hd
          exact ⟨n', e', List.mem_cons_of_mem _ h1, h2, h3⟩

theorem spv_some_version {v : String} {doc doc1 : Doc}
    (h : set_package_version v doc = some doc1) :
    readPackageVersion doc1 = some (Toml.str v) := by
  cases hp : getVal doc "package" with
  | none =>
    simp only [set_package_version, hp, Option.some.injEq] at h
    subst h
    simp [readPackageVersion, getVal_setKey_self, getVal]
  | some x =>
    cases x with
    | str sx => simp [set_package_version, hp] at h
    | other sx => simp [set_package_version, hp] at h
    | table kvs =>
      simp only [set_package_version, hp, Option.some.injEq] at h
      subst h
      simp [readPackageVersion, getVal_setKey_self]
    | inlineTable kvs =>
      simp only [set_package_version, hp, Option.some.injEq] at h
      subst h
      simp [readPackageVersion, getVal_setKey_self]

theorem spv_some_getVal_ne {v : String} {doc doc1 : Doc} {k : String}
    (h : set_package_version v doc = some doc1) (hk : k ≠ "package") :
    getVal doc1 k = getVal doc k := by
  cases hp : getVal doc "package" with
  | none =>
    simp only [set_package_version, hp, Option.some.injEq] at h
    subst h
    exact getVal_setKey_ne doc _ hk
  | some x =>
    cases x with
    | str sx => simp [set_package_version, hp] at h
    | other sx => simp [set_package_version, hp] at h
    | table kvs =>
      simp only [set_package_version, hp, Option.some.injEq] at h
      subst h
      exact getVal_setKey_ne doc _ hk
    | inlineTable kvs =>
      simp only [set_package_version, hp, Option.some.injEq] at h
      subst h
      exact getVal_setKey_ne doc _ hk

theorem umm_some_version {v : String} {doc : Doc} {u : Doc × List String}
    (h : update_member_manifest v doc = some u) :
    readPackageVersion u.1 = some (Toml.str v) := by
  cases hs : set_package_version v doc with
  | none => simp [update_member_manifest, hs] at h
  | some doc1 =>
    have hv := spv_some_version hs
    cases hd : getVal doc1 "dependencies" with
    | none =>
      simp only [update_member_manifest, hs, hd, Option.some.injEq] at h
      subst h
      exact hv
    | some x =>
      cases x with
      | table kvs =>
        simp only [update_member_manifest, hs, hd, Option.some.injEq] at h
        subst h
        have hpk : getVal (setKey doc1 "dependencies" (Toml.table (updateDeps v kvs).1)) "package"
            = getVal doc1 "package" := getVal_setKey_ne doc1 _ (by decide)
        unfold readPackageVersion at hv ⊢
        rw [hpk]
        exact hv
      | str sx =>
        simp only [update_member_manifest, hs, hd, Option.some.injEq] at h
        subst h
        exact hv
      | inlineTable kvs =>
        simp only [update_member_manifest, hs, hd, Option.some.injEq] at h
        subst h
        exact hv
      | other sx =>
        simp only [update_member_manifest, hs, hd, Option.some.injEq] at h
        subst h
        exact hv

theorem umm_some_depsTable {v : String} {doc : Doc} {u : Doc × List String}
    (h : update_member_manifest v doc = some u) :
    depsTable u.1 = (updateDeps v (depsTable doc)).1 ∧
      u.2 = (updateDeps v (depsTable doc)).2 := by
  cases hs : set_package_version v doc with
  | none => simp [update_member_manifest, hs] at h
  | some doc1 =>
    have hdd : getVal doc1 "dependencies" = getVal doc "dependencies" :=
      spv_some_getVal_ne hs (by decide)
    cases hd : getVal doc "dependencies" with
    | none =>
      rw [hd] at hdd
      simp only [update_member_manifest, hs, hdd, Option.some.injEq] at h
      subst h
      simp [depsTable, hdd, hd, updateDeps]
    | some x =>
      cases x with
      | table kvs =>
        rw [hd] at hdd
        simp only [update_member_manifest, hs, hdd, Option.some.injEq] at h
        subst h
        constructor
        · simp [depsTable, hd, getVal_setKey_self]
        · simp [depsTable, hd]
      | str sx =>
        rw [hd] at hdd
        simp only [update_member_manifest, hs, hdd, Option.some.injEq] at h
        subst h
        simp [depsTable, hdd, hd, updateDeps]
      | inlineTable kvs =>
        rw [hd] at hdd
        simp only [update_member_manifest, hs, hdd, Option.some.injEq] at h
        subst h
        simp [depsTable, hdd, hd, updateDeps]
      | other sx =>
        rw [hd] at hdd
        simp only [update_member_manifest, hs, hdd, Option.some.injEq] at h
        subst h
        simp [depsTable, hdd, hd, updateDeps]

theorem umm_some_nonstd {v : String} {doc : Doc} {u : Doc × List String}
    (h : update_member_manifest v doc = some u)
    (hns : ∀ kvs, getVal doc "dependencies" ≠ some (Toml.table kvs)) :
    getVal u.1 "dependencies" = getVal doc "dependencies" ∧ u.2 = [] := by
  cases hs : set_package_version v doc with
  | none => simp [update_member_manifest, hs] at h
  | some doc1 =>
    have hdd : getVal doc1 "dependencies" = getVal doc "dependencies" :=
      spv_some_getVal_ne hs (by decide)
    cases hd : getVal doc "dependencies" with
    | none =>
      rw [hd] at hdd
      simp only [update_member_manifest, hs, hdd, Option.some.injEq] at h
      subst h
      exact ⟨by rw [hdd], rfl⟩
    | some x =>
      cases x with
      | table kvs => exact absurd hd (hns kvs)
      | str sx =>
        rw [hd] at hdd
        simp only [update_member_manifest, hs, hdd, Option.some.injEq] at h
        subst h
        exact ⟨by rw [hdd], rfl⟩
      | inlineTable kvs =>
        rw [hd] at hdd
        simp only [update_member_manifest, hs, hdd, Option.some.injEq] at h
        subst h
        exact ⟨by rw [hdd], rfl⟩
      | other sx =>
        rw [hd] at hdd
        simp only [update_member_manifest, hs, hdd, Option.some.injEq] at h
        subst h
        exact ⟨by rw [hdd], rfl⟩

theorem umm_some_getVal_ne {v : String} {doc : Doc} {u : Doc × List String} {k : String}
    (h : update_member_manifest v doc = some u)
    (h1 : k ≠ "package") (h2 : k ≠ "dependencies") :
    getVal u.1 k = getVal doc k := by
  cases hs : set_package_version v doc with
  | none => simp [update_member_manifest, hs] at h
  | some doc1 =>
    have hg : getVal doc1 k = getVal doc k := spv_some_getVal_ne hs h1
    cases hd : getVal doc1 "dependencies" with
    | none =>
      simp only [update_member_manifest, hs, hd, Option.some.injEq] at h
      subst h
      exact hg
    | some x =>
      cases x with
      | table kvs =>
        simp only [update_member_manifest, hs, hd, Option.some.injEq] at h
        subst h
        rw [getVal_setKey_ne doc1 _ h2]
        exact hg
      | str sx =>
        simp only [update_member_manifest, hs, hd, Option.some.injEq] at h
        subst h
        exact hg
      | inlineTable kvs =>
        simp only [update_member_manifest, hs, hd, Option.some.injEq] at h
        subst h
        exact hg
      | other sx =>
        simp only [update_member_manifest, hs, hd, Option.some.injEq] at h
        subst h
        exact hg

theorem umm_some_locals_sound {v : String} {doc : Doc} {u : Doc × List String}
    (h : update_member_manifest v doc = some u) :
    ∀ d ∈ u.2, ∃ n e, (n, e) ∈ depsTable doc ∧ d = trimName n ∧
      hasLocalPath e = true := by
  intro d hd
  rw [(umm_some_depsTable h).2] at hd
  exact updateDeps_locals_sound v (depsTable doc) d hd

theorem update_member_deps_aux (v : String) :
    ∀ (ms : List (String × Doc)) (r : List (String × Doc) × Graph) (G : Graph),
      update_member_deps v ms = some r →
      (ms.map (fun p => trimName p.1)).Nodup →
      (∀ p ∈ ms, getDeps G (trimName p.1) = getDeps r.2 (trimName p.1)) →
      List.Forall₂ (MemberRewritten v G) ms r.1 := by
  intro ms
  induction ms with
  | nil =>
    intro r G h _ _
    simp only [update_member_deps, Option.some.injEq] at h
    subst h
    exact List.Forall₂.nil
  | cons p rest ih =>
    intro r G h hnd hagree
    obtain ⟨name, doc⟩ := p
    cases hu : update_member_manifest v doc with
    | none => simp [update_member_deps, hu] at h
    | some u =>
      cases hr' : update_member_deps v rest with
      | none => simp [update_member_deps, hu, hr'] at h
      | some r' =>
        simp only [update_member_deps, hu, hr', Option.some.injEq] at h
        subst h
        refine List.Forall₂.cons ⟨rfl, umm_some_version hu, u.2, ?_, ?_, ?_⟩ ?_
        · rw [hagree (name, doc) (List.mem_cons_self _ _)]
          simp [getDeps]
        · rw [(umm_some_depsTable hu).1]
          have hB := (umm_some_depsTable hu).2
          rw [hB]
          exact updateDeps_forall₂ v (depsTable doc)
        · exact fun hns => umm_some_nonstd hu hns
        · refine ih r' G hr' ?_ ?_
          · rw [List.map_cons, List.nodup_cons] at hnd
            exact hnd.2
          · intro q hq
            have h1 := hagree q (List.mem_cons_of_mem _ hq)
            rw [h1]
            have hne : trimName name ≠ trimName q.1 := by
              intro he
              rw [List.map_cons, List.nodup_cons] at hnd
              exact hnd.1 (he ▸ List.mem_map.mpr ⟨q, hq, rfl⟩)
            simp [getDeps, hne]

/-- Claim C2, amended: when the manifest-rewriting pass over the
workspace (members with distinct trimmed names) completes without a
`toml_edit` panic, every member's own version field equals the target
version; within each member's standard `[dependencies]` table — the only
shape the source's `as_table_mut` gate rewrites — every entry having a
local filesystem path has its required version set to the target version
and its trimmed name recorded as an edge of that member in the returned
graph, and every entry without a local path is left unchanged; a
`dependencies` key holding anything else, in particular an inline table,
is written back unchanged and contributes no edges (see the
counterexample for the original claim). -/
theorem update_member_deps_rewrites (v : String) (members : List (String × Doc))
    (hnd : (members.map (fun p => trimName p.1)).Nodup)
    (r : List (String × Doc) × Graph) (h : update_member_deps v members = some r) :
    List.Forall₂ (MemberRewritten v r.2) members r.1 :=
  update_member_deps_aux v members r r.2 h hnd (fun _ _ => rfl)

/-- Claim C2 counterexample: a member whose `dependencies` key holds an
inline table with a local-path entry.  The pass completes, but the entry
keeps no required version (`depVersion` stays `none`, the whole
`dependencies` value is bitwise the original) and the member's edge set
is empty — the program does not set the version of every local-path
dependency entry nor record its name as an edge, refuting the original
claim. -/
theorem inline_dependencies_left_unpinned :
    update_member_deps "9.9.9"
      [("m", [("package", Toml.table [("name", Toml.str "m"), ("version", Toml.str "0.1.0")]),
        ("dependencies",
          Toml.inlineTable [("libb", Toml.inlineTable [("path", Toml.str "../libb")])])])] =
      some ([("m",
          [("package", Toml.table [("name", Toml.str "m"), ("version", Toml.str "9.9.9")]),
           ("dependencies",
             Toml.inlineTable [("libb", Toml.inlineTable [("path", Toml.str "../libb")])])])],
        [("m", [])]) ∧
    hasLocalPath (Toml.inlineTable [("path", Toml.str "../libb")]) = true ∧
    depVersion (Toml.inlineTable [("path", Toml.str "../libb")]) = none ∧
    getDeps [("m", [])] "m" = some [] :=
  ⟨rfl, rfl, rfl, rfl⟩

/-- Claim C9: the manifest rewrite examines only the `package` item and
the `[dependencies]` table — every other section (such as
`[dev-dependencies]` or `[build-dependencies]`), even one holding entries
with local paths, is written back unchanged, and every recorded local
edge originates from a local-path entry of the `[dependencies]` table. -/
theorem update_member_manifest_frame (v : String) (doc : Doc) (u : Doc × List String)
    (h : update_member_manifest v doc = some u) (key : String)
    (h1 : key ≠ "package") (h2 : key ≠ "dependencies") :
    getVal u.1 key = getVal doc key ∧
    ∀ d ∈ u.2, ∃ n e, (n, e) ∈ depsTable doc ∧ d = trimName n ∧
      hasLocalPath e = true :=
  ⟨umm_some_getVal_ne h h1 h2, umm_some_locals_sound h⟩

/-! ### Version record serialization -/

theorem digit_facts : ∀ d, d < 10 → (digitChar d).isDigit = true ∧ digitChar d ≠ '.' ∧
    digitChar d ≠ '"' ∧ charToDigit (digitChar d) = d := by decide

theorem printNat_ne_nil (n : Nat) : printNat n ≠ [] := by
  by_cases h : n = 0
  · subst h; decide
  · unfold printNat
    rw [if_neg h]
    simp [Nat.digits_ne_nil_iff_ne_zero.mpr h]

theorem printNat_all_digits (n : Nat) : ∀ c ∈ printNat n, c.isDigit = true := by
  intro c hc
  by_cases h : n = 0
  · subst h
    simp [printNat] at hc
    subst hc
    decide
  · unfold printNat at hc
    rw [if_neg h] at hc
    obtain ⟨d, hd, rfl⟩ := List.mem_map.mp hc
    have : d < 10 := Nat.digits_lt_base (by norm_num) (List.mem_reverse.mp hd)
    exact (digit_facts d this).1

theorem isDigit_ne_dot {c : Char} (h : c.isDigit = true) : c ≠ '.' := by
  intro hc; subst hc; exact Bool.noConfusion h

theorem isDigit_ne_quote {c : Char} (h : c.isDigit = true) : c ≠ '"' := by
  intro hc; subst hc; exact Bool.noConfusion h

theorem foldl_digits (L : List Nat) (hL : ∀ d ∈ L, d < 10) :
    (L.reverse.map digitChar).foldl (fun a c => a * 10 + charToDigit c) 0 =
      Nat.ofDigits 10 L := by
  induction L with
  | nil => simp [Nat.ofDigits]
  | cons d L' ih =>
    have hd10 : d < 10 := hL d (List.mem_cons_self _ _)
    have ih' := ih (fun x hx => hL x (List.mem_cons_of_mem _ hx))
    rw [List.reverse_cons, List.map_append, List.foldl_append, ih']
    simp [Nat.ofDigits_cons, (digit_facts d hd10).2.2.2]
    ring

theorem parseNat_printNat (n : Nat) : parseNatChars (printNat n) = some n := by
  by_cases h0 : n = 0
  · subst h0; decide
  · unfold parseNatChars
    rw [if_neg (printNat_ne_nil n),
      if_pos (List.all_eq_true.mpr (printNat_all_digits n))]
    congr 1
    unfold printNat
    rw [if_neg h0]
    rw [foldl_digits _ (fun d hd => Nat.digits_lt_base (by norm_num) hd)]
    exact Nat.ofDigits_digits 10 n

theorem splitDot_no_dot {cs : List Char} (h : ∀ c ∈ cs, c ≠ '.') : splitDot cs = [cs] := by
  induction cs with
  | nil => rfl
  | cons c rest ih =>
    have hc : c ≠ '.' := h c (List.mem_cons_self _ _)
    have ih' := ih (fun x hx => h x (List.mem_cons_of_mem _ hx))
    simp [splitDot, hc, ih']

theorem splitDot_append {A R : List Char} (h : ∀ c ∈ A, c ≠ '.') :
    splitDot (A ++ '.' :: R) = A :: splitDot R := by
  induction A with
  | nil => simp [splitDot]
  | cons a A' ih =>
    have ha : a ≠ '.' := h a (List.mem_cons_self _ _)
    have ih' := ih (fun x hx => h x (List.mem_cons_of_mem _ hx))
    simp [splitDot, ha, ih']

theorem parseVersion_versionChars (v : Version) :
    parseVersionChars (versionChars v) = some v := by
  unfold parseVersionChars versionChars
  rw [splitDot_append (fun c hc => isDigit_ne_dot (printNat_all_digits _ c hc)),
    splitDot_append (fun c hc => isDigit_ne_dot (printNat_all_digits _ c hc)),
    splitDot_no_dot (fun c hc => isDigit_ne_dot (printNat_all_digits _ c hc))]
  simp [parseNat_printNat]

theorem stripPrefixChars_append (p rest : List Char) :
    stripPrefixChars p (p ++ rest) = some rest := by
  induction p with
  | nil => rfl
  | cons c p' ih => simp [stripPrefixChars, ih]

theorem takeQuoted_append {s : List Char} (rest : List Char) (h : ∀ c ∈ s, c ≠ '"') :
    takeQuoted (s ++ '"' :: rest) = some (s, rest) := by
  induction s with
  | nil => rfl
  | cons c s' ih =>
    have hc : c ≠ '"' := h c (List.mem_cons_self _ _)
    have ih' := ih (fun x hx => h x (List.mem_cons_of_mem _ hx))
    simp [takeQuoted, hc, ih']

theorem versionChars_no_quote (v : Version) : ∀ c ∈ versionChars v, c ≠ '"' := by
  intro c hc
  unfold versionChars at hc
  rcases List.mem_append.mp hc with h1 | h1
  · exact isDigit_ne_quote (printNat_all_digits _ c h1)
  · rcases List.mem_cons.mp h1 with rfl | h2
    · decide
    · rcases List.mem_append.mp h2 with h3 | h3
      · exact isDigit_ne_quote (printNat_all_digits _ c h3)
      · rcases List.mem_cons.mp h3 with rfl | h4
        · decide
        · exact isDigit_ne_quote (printNat_all_digits _ c h4)

/-- Claim C10: for every version record, saving it with
`save_armory_toml` and then loading the produced file contents with
`load_armory_toml` returns the same record (save/load round-trip over the
`armory.toml` slot of the workspace directory). -/
theorem load_save_armory (a : ArmoryTOML) :
    load_armory_toml (save_armory_toml a) = some a := by
  unfold load_armory_toml save_armory_toml
  rw [show ("\"\n".data : List Char) = '"' :: ['\n'] from rfl, List.append_assoc]
  simp only [stripPrefixChars_append,
    takeQuoted_append ['\n'] (versionChars_no_quote a.version),
    parseVersion_versionChars, if_pos]

end Armory

namespace Armory

theorem le_foldr_max (rk : String → Nat) (ls : List String) :
    ∀ c ∈ ls, rk c ≤ ls.foldr (fun k a => max (rk k) a) 0 := by
  induction ls with
  | nil => simp
  | cons a tl ih =>
    intro c hc
    rcases List.mem_cons.mp hc with rfl | hc'
    · exact le_max_left _ _
    · exact le_trans (ih c hc') (le_max_right _ _)

theorem publish_crates_all_published (f : String → Nat → Bool) (g : Graph) :
    ∀ ls fuel st, (∀ k ∈ ls, k ∈ st.published) → ls.length < fuel →
      publish_crates f g fuel ls st = some (Except.ok st) := by
  intro ls
  induction ls with
  | nil =>
    intro fuel st _ hf
    match fuel, hf with
    | fuel + 1, _ => simp [publish_crates]
  | cons c cs ih =>
    intro fuel st hall hf
    match fuel, hf with
    | fuel + 1, hf =>
      rw [publish_crates_mem f g fuel cs (hall c (List.mem_cons_self _ _))]
      exact ih fuel st (fun k hk => hall k (List.mem_cons_of_mem _ hk)) (by simpa using hf)

/-- Claim C1: over any acyclic dependency graph that is closed over
workspace membership, the publish walk (`publish_workspace` iterating
`publish_crate` with a shared `PublishState`) publishes each member at
most once, and a member's publish call is invoked only after every one of
its local dependencies is already in `PublishState`; moreover the walk
returns (for every sufficient fuel). -/
theorem publish_walk_at_most_once_deps_first (f : String → Nat → Bool) (g : Graph)
    (rk : String → Nat) (hrk : IsRank g rk) (_hcl : Closed g) :
    (∀ fuel r, publish_walk f g fuel = some r →
      AtMostOncePub (resultState r).trace ∧ CallsAfterDeps g (resultState r).trace) ∧
    (∃ N, ∀ fuel, N ≤ fuel → (publish_walk f g fuel).isSome = true) := by
  constructor
  · intro fuel r h
    have post := publish_crates_post f g rk hrk fuel (keys g) ⟨[], []⟩ (Inv_init f g)
    cases r with
    | ok st' =>
      obtain ⟨hI, _, _, _⟩ := post.1 st' h
      exact ⟨atMostOnce_of_Inv hI, hI.depsBefore⟩
    | error e =>
      obtain ⟨pk, st'⟩ := e
      cases pk with
      | missingKey m =>
        obtain ⟨hI, _, _, _, _⟩ := post.2.1 m st' h
        exact ⟨atMostOnce_of_Inv hI, hI.depsBefore⟩
      | publishFailed m =>
        obtain ⟨_, _, _, hamo, hcad, _⟩ := post.2.2 m st' h
        exact ⟨hamo, hcad⟩
      | manifestIndex =>
        exact absurd h (publish_crates_no_manifestIndex f g fuel (keys g) ⟨[], []⟩ st')
  · obtain ⟨N, hN⟩ := publish_crates_total f g rk hrk
      ((keys g).foldr (fun k a => max (rk k) a) 0 + 1) (keys g)
      (fun c hc => by have := le_foldr_max rk (keys g) c hc; omega)
    exact ⟨N, fun fuel hf => hN ⟨[], []⟩ fuel hf⟩

/-- Claim C6: for every dependency graph that is acyclic (witnessed by a
rank function) and closed over workspace membership, the recursive
publish walk terminates — `publish_crate` from any member and from any
state, and hence `publish_workspace` over all members, return once the
fuel of the embedding is large enough. -/
theorem publish_walk_terminates (f : String → Nat → Bool) (g : Graph)
    (rk : String → Nat) (hrk : IsRank g rk) (_hcl : Closed g) :
    (∀ c ∈ keys g, ∃ N, ∀ st fuel, N ≤ fuel →
      (publish_crate f g fuel c st).isSome = true) ∧
    (∃ N, ∀ fuel, N ≤ fuel → (publish_walk f g fuel).isSome = true) := by
  constructor
  · intro c _
    obtain ⟨N, hN⟩ := publish_crates_total f g rk hrk (rk c + 1) [c]
      (by intro x hx; simp at hx; subst hx; omega)
    exact ⟨N, fun st fuel hf => hN st fuel hf⟩
  · obtain ⟨N, hN⟩ := publish_crates_total f g rk hrk
      ((keys g).foldr (fun k a => max (rk k) a) 0 + 1) (keys g)
      (fun c hc => by have := le_foldr_max rk (keys g) c hc; omega)
    exact ⟨N, fun fuel hf => hN ⟨[], []⟩ fuel hf⟩

/-- Claim C4: invoking the publish walk when `PublishState` already
contains every member name returns the state unchanged — in particular
the trace is unchanged, so zero registry publish calls are performed. -/
theorem publish_walk_noop_when_all_published (f : String → Nat → Bool) (g : Graph)
    (fuel : Nat) (st0 : WalkState) (hall : ∀ k ∈ keys g, k ∈ st0.published)
    (hfuel : (keys g).length < fuel) :
    publish_crates f g fuel (keys g) st0 = some (Except.ok st0) :=
  publish_crates_all_published f g (keys g) fuel st0 hall hfuel

/-- Claim C3: when the wrapped publish operation fails on every attempt
for member `bad` (and succeeds for the others), a fatal run names `bad`,
performs exactly 6 registry attempts for it (tries 1..6, the configured
maximum), the trace ends with those attempts (no member after it in
traversal order is attempted), `bad` is not published while members
already in `PublishState` keep their publish marks; and every
sufficiently fueled run does terminate fatally this way. -/
theorem publish_walk_retry_bound (f : String → Nat → Bool) (g : Graph)
    (rk : String → Nat) (bad : String) (hrk : IsRank g rk) (hcl : Closed g)
    (hbad : bad ∈ keys g) (hfbad : ∀ t, f bad t = false)
    (hfok : ∀ m t, m ≠ bad → f m t = true) :
    (∀ fuel m st', publish_walk f g fuel = some (Except.error (Panic.publishFailed m, st')) →
      m = bad ∧ attemptCount bad st'.trace = 6 ∧
      (∃ evs, st'.trace = evs ++ [Ev.call bad 1, Ev.call bad 2, Ev.call bad 3, Ev.call bad 4,
        Ev.call bad 5, Ev.call bad 6] ∧ attemptCount bad evs = 0) ∧
      bad ∉ st'.published ∧ (∀ m' ∈ st'.published, Ev.pub m' ∈ st'.trace)) ∧
    (∃ N, ∀ fuel, N ≤ fuel →
      ∃ st', publish_walk f g fuel = some (Except.error (Panic.publishFailed bad, st'))) := by
  have hmain : ∀ fuel m st',
      publish_walk f g fuel = some (Except.error (Panic.publishFailed m, st')) →
      m = bad ∧ attemptCount bad st'.trace = 6 ∧
      (∃ evs, st'.trace = evs ++ [Ev.call bad 1, Ev.call bad 2, Ev.call bad 3, Ev.call bad 4,
        Ev.call bad 5, Ev.call bad 6] ∧ attemptCount bad evs = 0) ∧
      bad ∉ st'.published ∧ (∀ m' ∈ st'.published, Ev.pub m' ∈ st'.trace) := by
    intro fuel m st' h
    have post := publish_crates_post f g rk hrk fuel (keys g) ⟨[], []⟩ (Inv_init f g)
    obtain ⟨hE, hrf, hgds, hamo, hcad, stM, hIM, hpubeq, htreq, hnm⟩ := post.2.2 m st' h
    have hm : m = bad := by
      by_contra hne
      rw [retry_first_true f m (hfok m 1 hne)] at hrf
      exact Bool.noConfusion hrf
    subst m
    have hretry := retry_fail_all f bad hfbad
    rw [hretry] at htreq
    have hnocall : ∀ t, Ev.call bad t ∉ stM.trace :=
      fun t hmem => hnm (hIM.callsPub bad t hmem)
    have hpre0 : attemptCount bad stM.trace = 0 := by
      unfold attemptCount
      rw [List.countP_eq_zero]
      intro e he hcall
      cases e with
      | call n t =>
        have : n = bad := by simpa [isCallTo] using hcall
        subst this
        exact hnocall t he
      | pub n => simp [isCallTo] at hcall
    refine ⟨rfl, ?_, ⟨stM.trace, htreq, hpre0⟩, hpubeq ▸ hnm, ?_⟩
    · rw [htreq]
      unfold attemptCount at hpre0 ⊢
      rw [List.countP_append, hpre0]
      simp [isCallTo]
    · intro m' hm'
      rw [hpubeq] at hm'
      rw [htreq]
      exact List.mem_append_left _ (pub_mem_of_published hIM hm')
  refine ⟨hmain, ?_⟩
  obtain ⟨N, hN⟩ := publish_crates_total f g rk hrk
    ((keys g).foldr (fun k a => max (rk k) a) 0 + 1) (keys g)
    (fun c hc => by have := le_foldr_max rk (keys g) c hc; omega)
  refine ⟨N, fun fuel hf => ?_⟩
  have hsome := hN ⟨[], []⟩ fuel hf
  have post := publish_crates_post f g rk hrk fuel (keys g) ⟨[], []⟩ (Inv_init f g)
  obtain ⟨r, hr⟩ := Option.isSome_iff_exists.mp hsome
  cases r with
  | ok st' =>
    obtain ⟨hI, _, hall, _⟩ := post.1 st' hr
    have := hI.pubOk bad (hall bad hbad)
    rw [retry_fail_all f bad hfbad] at this
    exact Bool.noConfusion this
  | error e =>
    obtain ⟨pk, st'⟩ := e
    cases pk with
    | missingKey m0 =>
      obtain ⟨_, _, hgd, _, hprov⟩ := post.2.1 m0 st' hr
      exfalso
      rcases hprov with h' | ⟨c, ds, hc, hm0⟩
      · have := getDeps_isSome_iff.mpr h'
        rw [hgd] at this
        exact Bool.noConfusion this
      · have := getDeps_isSome_iff.mpr (hcl (c, ds) (getDeps_mem hc) m0 hm0)
        rw [hgd] at this
        exact Bool.noConfusion this
    | publishFailed m0 =>
      have hm0 := (hmain fuel m0 st' hr).1
      subst hm0
      exact ⟨st', hr⟩
    | manifestIndex =>
      exact absurd hr (publish_crates_no_manifestIndex f g fuel (keys g) ⟨[], []⟩ st')

/-- Claim C5, amended: an undeclared member referenced as a dependency is
fatal (an unrecoverable `missingKey` panic with no retry), detected during
the publish walk when the undeclared name is first visited: no publish
attempt is ever made for that name and it is never published — but
members earlier in traversal order may already have been published (see
the counterexample). -/
theorem publish_walk_missing_dep_unattempted (f : String → Nat → Bool) (g : Graph)
    (fuel : Nat) (m : String) (st' : WalkState)
    (h : publish_walk f g fuel = some (Except.error (Panic.missingKey m, st'))) :
    getDeps g m = none ∧ m ∉ st'.published ∧ ∀ t, Ev.call m t ∉ st'.trace :=
  (publish_crates_calls f g fuel (keys g) ⟨[], []⟩ (by simp)).2 m st' h

/-- Claim C5 counterexample: in a workspace where member `a` declares a
path dependency on the non-member `x`, the release run performs the
registry publish of member `b` (one call event, `b` published) before it
dies on the undeclared name — the configuration error is not detected
before or during graph construction, and the run does not abort before
every publish attempt. -/
theorem missing_dep_not_detected_before_publish :
    publish_workspace (fun _ _ => true) ⟨1, 0, 0⟩
      [("b", [("package", Toml.table [("name", Toml.str "b"), ("version", Toml.str "0.1.0")])]),
       ("a", [("package", Toml.table [("name", Toml.str "a"), ("version", Toml.str "0.1.0")]),
              ("dependencies", Toml.table [("x", Toml.table [("path", Toml.str "../x")])])])]
      10 =
      some (Except.error (Panic.missingKey "x",
        ⟨["b"], [Ev.call "b" 1, Ev.pub "b"]⟩)) ∧
    Ev.call "b" 1 ∈ (⟨["b"], [Ev.call "b" 1, Ev.pub "b"]⟩ : WalkState).trace ∧
    "b" ∈ (⟨["b"], [Ev.call "b" 1, Ev.pub "b"]⟩ : WalkState).published :=
  ⟨rfl, by decide, by decide⟩

/-- Claim C7: the three release-type transforms are exactly patch+1,
(minor+1, patch=0) and (major+1, minor=0, patch=0); on `1.2.3` they yield
`1.2.4`, `1.3.0` and `2.0.0`. -/
theorem bump_release_transforms :
    (∀ v, bump ReleaseType.patch v = ⟨v.major, v.minor, v.patch + 1⟩) ∧
    (∀ v, bump ReleaseType.minor v = ⟨v.major, v.minor + 1, 0⟩) ∧
    (∀ v, bump ReleaseType.major v = ⟨v.major + 1, 0, 0⟩) ∧
    bump ReleaseType.patch ⟨1, 2, 3⟩ = ⟨1, 2, 4⟩ ∧
    bump ReleaseType.minor ⟨1, 2, 3⟩ = ⟨1, 3, 0⟩ ∧
    bump ReleaseType.major ⟨1, 2, 3⟩ = ⟨2, 0, 0⟩ :=
  ⟨fun _ => rfl, fun _ => rfl, fun _ => rfl, rfl, rfl, rfl⟩

/-- Claim C8: in every release run the version record is overwritten with
the newly selected version strictly before any member manifest is
rewritten and before any publish attempt — the save action is the very
first action of the run and never recurs. -/
theorem release_run_saves_record_first (f : String → Nat → Bool) (rt : ReleaseType)
    (cur : Version) (members : List (String × Doc)) (fuel : Nat) :
    ∃ rest, release_run f rt cur members fuel = Action.saveRecord (bump rt cur) :: rest ∧
      ∀ w, Action.saveRecord w ∉ rest := by
  refine ⟨_, rfl, ?_⟩
  intro w hw
  rcases List.mem_append.mp hw with h | h
  · obtain ⟨p, _, hp⟩ := List.mem_map.mp h
    exact Action.noConfusion hp
  · unfold walkActions at h
    obtain ⟨e, _, he⟩ := List.mem_map.mp h
    cases e <;> exact Action.noConfusion he

end Armory

namespace Armory

/-- Witness for claim C1. -/
theorem publish_walk_at_most_once_deps_first_witness :
    IsRank [("a", []), ("b", ["a"]), ("c", ["a"])] (fun m => if m = "a" then 0 else 1) ∧
    Closed [("a", []), ("b", ["a"]), ("c", ["a"])] ∧
    (AtMostOncePub (resultState (Except.ok ⟨["a", "b", "c"],
        [Ev.call "a" 1, Ev.pub "a", Ev.call "b" 1, Ev.pub "b", Ev.call "c" 1,
          Ev.pub "c"]⟩)).trace ∧
      CallsAfterDeps [("a", []), ("b", ["a"]), ("c", ["a"])]
        (resultState (Except.ok ⟨["a", "b", "c"],
          [Ev.call "a" 1, Ev.pub "a", Ev.call "b" 1, Ev.pub "b", Ev.call "c" 1,
            Ev.pub "c"]⟩)).trace) :=
  ⟨by unfold IsRank; decide, by unfold Closed; decide,
    (publish_walk_at_most_once_deps_first (fun _ _ => true)
      [("a", []), ("b", ["a"]), ("c", ["a"])] (fun m => if m = "a" then 0 else 1)
      (by unfold IsRank; decide) (by unfold Closed; decide)).1 10
      (Except.ok ⟨["a", "b", "c"],
        [Ev.call "a" 1, Ev.pub "a", Ev.call "b" 1, Ev.pub "b", Ev.call "c" 1, Ev.pub "c"]⟩)
      rfl⟩

/-- Witness for claim C6. -/
theorem publish_walk_terminates_witness :
    IsRank [("u", []), ("w", ["u"])] (fun m => if m = "w" then 1 else 0) ∧
    Closed [("u", []), ("w", ["u"])] ∧
    ((∀ c ∈ keys [("u", []), ("w", ["u"])], ∃ N, ∀ st fuel, N ≤ fuel →
        (publish_crate (fun _ _ => true) [("u", []), ("w", ["u"])] fuel c st).isSome = true) ∧
      (∃ N, ∀ fuel, N ≤ fuel →
        (publish_walk (fun _ _ => true) [("u", []), ("w", ["u"])] fuel).isSome = true)) :=
  ⟨by unfold IsRank; decide, by unfold Closed; decide,
    publish_walk_terminates (fun _ _ => true) [("u", []), ("w", ["u"])]
      (fun m => if m = "w" then 1 else 0) (by unfold IsRank; decide) (by unfold Closed; decide)⟩

/-- Witness for claim C4. -/
theorem publish_walk_noop_when_all_published_witness :
    (∀ k ∈ keys [("m", [])], k ∈ (⟨["m"], [Ev.call "m" 1, Ev.pub "m"]⟩ : WalkState).published) ∧
    (keys [("m", [])]).length < 3 ∧
    publish_crates (fun _ _ => true) [("m", [])] 3 (keys [("m", [])])
        ⟨["m"], [Ev.call "m" 1, Ev.pub "m"]⟩ =
      some (Except.ok ⟨["m"], [Ev.call "m" 1, Ev.pub "m"]⟩) :=
  ⟨by decide, by decide,
    publish_walk_noop_when_all_published (fun _ _ => true) [("m", [])] 3
      ⟨["m"], [Ev.call "m" 1, Ev.pub "m"]⟩ (by decide) (by decide)⟩

/-- Witness for claim C3. -/
theorem publish_walk_retry_bound_witness :
    ("q" ∈ keys [("p", []), ("q", ["p"])]) ∧
    ("q" = "q" ∧
      attemptCount "q" [Ev.call "p" 1, Ev.pub "p", Ev.call "q" 1, Ev.call "q" 2, Ev.call "q" 3,
        Ev.call "q" 4, Ev.call "q" 5, Ev.call "q" 6] = 6 ∧
      (∃ evs, [Ev.call "p" 1, Ev.pub "p", Ev.call "q" 1, Ev.call "q" 2, Ev.call "q" 3,
          Ev.call "q" 4, Ev.call "q" 5, Ev.call "q" 6] =
          evs ++ [Ev.call "q" 1, Ev.call "q" 2, Ev.call "q" 3, Ev.call "q" 4, Ev.call "q" 5,
            Ev.call "q" 6] ∧ attemptCount "q" evs = 0) ∧
      "q" ∉ ["p"] ∧
      (∀ m' ∈ ["p"], Ev.pub m' ∈ [Ev.call "p" 1, Ev.pub "p", Ev.call "q" 1, Ev.call "q" 2,
        Ev.call "q" 3, Ev.call "q" 4, Ev.call "q" 5, Ev.call "q" 6])) :=
  ⟨by decide,
    (publish_walk_retry_bound (fun m _ => m != "q") [("p", []), ("q", ["p"])]
      (fun m => if m = "q" then 1 else 0) "q" (by unfold IsRank; decide) (by unfold Closed; decide) (by decide)
      (by intro t; show ("q" != "q") = false; decide) (fun m t hm => bne_iff_ne.mpr hm)).1 20 "q"
      ⟨["p"], [Ev.call "p" 1, Ev.pub "p", Ev.call "q" 1, Ev.call "q" 2, Ev.call "q" 3,
        Ev.call "q" 4, Ev.call "q" 5, Ev.call "q" 6]⟩ rfl⟩

/-- Witness for the amended claim C5. -/
theorem publish_walk_missing_dep_unattempted_witness :
    getDeps [("b", []), ("a", ["x"])] "x" = none ∧
    "x" ∉ (⟨["b"], [Ev.call "b" 1, Ev.pub "b"]⟩ : WalkState).published ∧
    ∀ t, Ev.call "x" t ∉ (⟨["b"], [Ev.call "b" 1, Ev.pub "b"]⟩ : WalkState).trace :=
  publish_walk_missing_dep_unattempted (fun _ _ => true) [("b", []), ("a", ["x"])] 10 "x"
    ⟨["b"], [Ev.call "b" 1, Ev.pub "b"]⟩ rfl

/-- Witness for claim C2. -/
theorem update_member_deps_rewrites_witness :
    (([("liba", [("package", Toml.table [("name", Toml.str "liba"),
          ("version", Toml.str "0.1.0")]),
        ("dependencies", Toml.table [("serde", Toml.table [("version", Toml.str "1.0")]),
          ("libb", Toml.table [("path", Toml.str "../libb"),
            ("version", Toml.str "0.1.0")])])])] :
        List (String × Doc)).map (fun p => trimName p.1)).Nodup ∧
    update_member_deps "1.2.3"
      [("liba", [("package", Toml.table [("name", Toml.str "liba"),
          ("version", Toml.str "0.1.0")]),
        ("dependencies", Toml.table [("serde", Toml.table [("version", Toml.str "1.0")]),
          ("libb", Toml.table [("path", Toml.str "../libb"),
            ("version", Toml.str "0.1.0")])])])] =
      some ([("liba", [("package", Toml.table [("name", Toml.str "liba"),
          ("version", Toml.str "1.2.3")]),
        ("dependencies", Toml.table [("serde", Toml.table [("version", Toml.str "1.0")]),
          ("libb", Toml.table [("path", Toml.str "../libb"),
            ("version", Toml.str "1.2.3")])])])],
        [("liba", ["libb"])]) ∧
    List.Forall₂ (MemberRewritten "1.2.3" [("liba", ["libb"])])
      [("liba", [("package", Toml.table [("name", Toml.str "liba"),
          ("version", Toml.str "0.1.0")]),
        ("dependencies", Toml.table [("serde", Toml.table [("version", Toml.str "1.0")]),
          ("libb", Toml.table [("path", Toml.str "../libb"),
            ("version", Toml.str "0.1.0")])])])]
      [("liba", [("package", Toml.table [("name", Toml.str "liba"),
          ("version", Toml.str "1.2.3")]),
        ("dependencies", Toml.table [("serde", Toml.table [("version", Toml.str "1.0")]),
          ("libb", Toml.table [("path", Toml.str "../libb"),
            ("version", Toml.str "1.2.3")])])])] :=
  ⟨by decide, rfl,
    update_member_deps_rewrites "1.2.3"
      [("liba", [("package", Toml.table [("name", Toml.str "liba"),
          ("version", Toml.str "0.1.0")]),
        ("dependencies", Toml.table [("serde", Toml.table [("version", Toml.str "1.0")]),
          ("libb", Toml.table [("path", Toml.str "../libb"),
            ("version", Toml.str "0.1.0")])])])] (by decide)
      ([("liba", [("package", Toml.table [("name", Toml.str "liba"),
          ("version", Toml.str "1.2.3")]),
        ("dependencies", Toml.table [("serde", Toml.table [("version", Toml.str "1.0")]),
          ("libb", Toml.table [("path", Toml.str "../libb"),
            ("version", Toml.str "1.2.3")])])])],
        [("liba", ["libb"])]) rfl⟩

/-- Witness for claim C9. -/
theorem update_member_manifest_frame_witness :
    update_member_manifest "2.0.0"
      [("package", Toml.table [("name", Toml.str "liba"), ("version", Toml.str "0.1.0")]),
       ("dependencies", Toml.table [("libb", Toml.table [("path", Toml.str "../libb")])]),
       ("dev-dependencies", Toml.table [("libc", Toml.table [("path", Toml.str "../libc")])])] =
      some ([("package", Toml.table [("name", Toml.str "liba"), ("version", Toml.str "2.0.0")]),
        ("dependencies", Toml.table [("libb", Toml.table [("path", Toml.str "../libb"),
          ("version", Toml.str "2.0.0")])]),
        ("dev-dependencies", Toml.table [("libc", Toml.table [("path", Toml.str "../libc")])])],
        ["libb"]) ∧
    ("dev-dependencies" ≠ "package") ∧ ("dev-dependencies" ≠ "dependencies") ∧
    (getVal ([("package", Toml.table [("name", Toml.str "liba"), ("version", Toml.str "2.0.0")]),
        ("dependencies", Toml.table [("libb", Toml.table [("path", Toml.str "../libb"),
          ("version", Toml.str "2.0.0")])]),
        ("dev-dependencies", Toml.table [("libc", Toml.table [("path", Toml.str "../libc")])])],
        (["libb"] : List String)).1 "dev-dependencies" =
      getVal [("package", Toml.table [("name", Toml.str "liba"), ("version", Toml.str "0.1.0")]),
         ("dependencies", Toml.table [("libb", Toml.table [("path", Toml.str "../libb")])]),
         ("dev-dependencies", Toml.table [("libc", Toml.table [("path", Toml.str "../libc")])])]
        "dev-dependencies" ∧
      ∀ d ∈ ([("package", Toml.table [("name", Toml.str "liba"),
            ("version", Toml.str "2.0.0")]),
          ("dependencies", Toml.table [("libb", Toml.table [("path", Toml.str "../libb"),
            ("version", Toml.str "2.0.0")])]),
          ("dev-dependencies",
            Toml.table [("libc", Toml.table [("path", Toml.str "../libc")])])],
          (["libb"] : List String)).2,
        ∃ n e, (n, e) ∈ depsTable
          [("package", Toml.table [("name", Toml.str "liba"), ("version", Toml.str "0.1.0")]),
           ("dependencies", Toml.table [("libb", Toml.table [("path", Toml.str "../libb")])]),
           ("dev-dependencies", Toml.table [("libc", Toml.table [("path", Toml.str "../libc")])])] ∧
          d = trimName n ∧ hasLocalPath e = true) :=
  ⟨rfl, by decide, by decide,
    update_member_manifest_frame "2.0.0"
      [("package", Toml.table [("name", Toml.str "liba"), ("version", Toml.str "0.1.0")]),
       ("dependencies", Toml.table [("libb", Toml.table [("path", Toml.str "../libb")])]),
       ("dev-dependencies", Toml.table [("libc", Toml.table [("path", Toml.str "../libc")])])]
      ([("package", Toml.table [("name", Toml.str "liba"), ("version", Toml.str "2.0.0")]),
        ("dependencies", Toml.table [("libb", Toml.table [("path", Toml.str "../libb"),
          ("version", Toml.str "2.0.0")])]),
        ("dev-dependencies", Toml.table [("libc", Toml.table [("path", Toml.str "../libc")])])],
        ["libb"]) rfl "dev-dependencies" (by decide) (by decide)⟩

end Armory
